import Mathlib

/-! Eye tracking pipeline (`metoda_empirica.cpp`): embedding and verified properties.

The decision logic of `main` is embedded stage by stage:

* the eye candidate detector (the threshold relaxation `do … while` loop),
* the eye set resolver (image-13 correction and mirroring fallback),
* the pupil locator (contour selection per eye),
* the radius normalisation and the calls to `circle` that render the pupils,
* the batch loop, with the image files abstracted to what `imread` and the face
  detector return for each index.

Conventions of the embedding.

* C++ `int` values are `Int`; image coordinates are far from the 32 bit range,
  so no wrap-around is modelled.  `int / int` is truncating division (`Int.tdiv`).
* C++ `double` values are exact rationals (`ℚ`).  A division whose divisor can
  be zero is treated explicitly, following IEEE (`x / 0` is an infinity or NaN).
  The comparisons of the program are then exact, except for the ellipse test of
  line 151, whose chain of seven rounded operations can end on the other side of
  `0.6` when the exact deviation is `0.6` itself.
* Line 151 is therefore embedded a second time, operation by operation in IEEE
  binary64 arithmetic (`ellipse_condition_ieee`), together with the detector
  that uses it (`detectEyesIeee`); the two detectors agree on every contour list
  on which the two ellipse tests agree.
* The OpenCV primitives are not part of the program; the values they return on
  a contour are supplied by a record `CvOps`.
-/

namespace EyeTracking

/-! ## Data model -/

/-- The OpenCV rectangle `cv::Rect`: integer `x`, `y`, `width`, `height`. -/
structure Rect where
  x : Int
  y : Int
  width : Int
  height : Int
  deriving DecidableEq, Repr

/-- The member `Rect::area()`: `width * height`. -/
def Rect.area (r : Rect) : Int := r.width * r.height

/-- An integer point `cv::Point`. -/
abbrev Point := Int × Int

/-- A contour `vector<Point>`. -/
abbrev Contour := List Point

/-- The OpenCV primitives the program calls on a contour. -/
structure CvOps where
  /-- The value of `contourArea(c)`. -/
  contourArea : Contour → ℚ
  /-- The value of `boundingRect(c)`. -/
  boundingRect : Contour → Rect
  /-- The center and radius written by `minEnclosingCircle(c, center, radius)`. -/
  minEnclosingCircle : Contour → (ℚ × ℚ) × ℚ

/-- A single channel 8 bit image `cv::Mat`; `atUchar y x` is `at<uchar>(y, x)`. -/
structure Mat where
  rows : Nat
  cols : Nat
  atUchar : Int → Int → Nat

/-- The sub-image `m(r)`: a view of `m` with origin `(r.x, r.y)` and the size of `r`. -/
def Mat.roi (m : Mat) (r : Rect) : Mat :=
  { rows := r.height.toNat
    cols := r.width.toNat
    atUchar := fun y x => m.atUchar (r.y + y) (r.x + x) }

/-- Conversion `double → int`: truncation toward zero. -/
def truncToInt (q : ℚ) : Int := if 0 ≤ q then ⌊q⌋ else ⌈q⌉

/-- The constant `#define PI 3.1415`. -/
def PI : ℚ := 3.1415

/-! ## Eye set resolver (lines 191–244) -/

/-- The loop `for (i = 0; i < eyes.size(); i++) if (eyes[i].x < bound) eyes.erase(begin + i);`
of lines 195–199, started at index `i`; `bound` is `face.x + face.height / 2`. -/
def eraseLoop (bound : Int) (eyes : List Rect) (i : Nat) : List Rect :=
  if h : i < eyes.length then
    if (eyes.get ⟨i, h⟩).x < bound then
      eraseLoop bound (eyes.eraseIdx i) (i + 1)
    else
      eraseLoop bound eyes (i + 1)
  else eyes
termination_by eyes.length - i
decreasing_by
  · simp only [List.length_eraseIdx, h, if_true]; omega
  · omega

/-- The block `if (eyes.size() == 2) { … }` of lines 203–219. -/
def sameSidePair (face : Rect) (eyes : List Rect) : List Rect :=
  match eyes with
  | [e0, e1] =>
    let mid_way := face.y + Int.tdiv face.width 2
    if (e0.y ≥ mid_way ∧ e1.y ≤ mid_way) ∨ (e0.y ≤ mid_way ∧ e1.y ≥ mid_way) then
      [e0, e1]
    else if e0.x > e1.x then
      [e0, e1].eraseIdx 1
    else
      [e0, e1].eraseIdx 0
  | _ => eyes

/-- The body of `if (img_id == 13) { … }` (lines 192–220). -/
def image13Correction (face : Rect) (eyes : List Rect) : List Rect :=
  sameSidePair face (eraseLoop (face.x + Int.tdiv face.height 2) eyes 0)

/-- The rectangle pushed by the mirroring fallback (lines 231–242) for `found_eye`. -/
def mirrorEye (face found_eye : Rect) : Rect :=
  if found_eye.x - face.x > (face.x + face.width) - (found_eye.x + found_eye.width) then
    { x := face.x + (face.x + face.width - (found_eye.x + found_eye.width))
      y := found_eye.y, width := found_eye.width, height := found_eye.height }
  else
    { x := face.x + face.width - (found_eye.x - face.x) - found_eye.width
      y := found_eye.y, width := found_eye.width, height := found_eye.height }

/-- The block `if (eyes.size() == 1) { … }` of lines 227–244. -/
def mirrorFallback (face : Rect) (eyes : List Rect) : List Rect :=
  match eyes with
  | [found_eye] => [found_eye] ++ [mirrorEye face found_eye]
  | _ => eyes

/-- The eye set resolver: lines 191–244 applied to the detector's list `eyes`. -/
def resolveEyes (img_id : Int) (face : Rect) (eyes : List Rect) : List Rect :=
  mirrorFallback face (if img_id = 13 then image13Correction face eyes else eyes)

/-! ## Eye candidate detector (lines 131–189) -/

/-- The test `area >= relative_area` of line 145. -/
def area_condition (area relative_area : ℚ) : Bool :=
  decide (area ≥ relative_area)

/-- The test `width / height >= 1.3` of line 147.  For `height = 0` the IEEE
quotient is `+inf` (positive width), `-inf` or NaN, and only `+inf` passes. -/
def width_condition (width height : ℚ) : Bool :=
  if height = 0 then decide (0 < width) else decide (width / height ≥ 1.3)

/-- The test `abs(1 - (area / (PI * width / 2 * height / 2))) <= 0.6` of line 151 (`abs`
is the `double` overload), in exact arithmetic.  For a zero divisor the IEEE value is an
infinity or NaN and the test fails.  The evaluation in doubles, which can differ when the
exact deviation is `0.6`, is `ellipse_condition_ieee`. -/
def ellipse_condition (area width height : ℚ) : Bool :=
  if PI * width / 2 * height / 2 = 0 then false
  else decide (|1 - (area / (PI * width / 2 * height / 2))| ≤ 0.6)

/-- The test `width <= face.width / 3` of line 154; the quotient is an `int` division. -/
def width_to_face (width : ℚ) (face : Rect) : Bool :=
  decide (width ≤ ((Int.tdiv face.width 3 : Int) : ℚ))

/-- The nested `for` loops of lines 165–173, giving `(no_of_zeros, total_pixels)`. -/
def countPixels (subImg : Mat) : Nat × Nat :=
  (List.range subImg.cols).foldl (fun (acc : Nat × Nat) (x : Nat) =>
    (List.range subImg.rows).foldl (fun (acc : Nat × Nat) (y : Nat) =>
      (if subImg.atUchar (y : Int) (x : Int) > 180 then acc.1 + 1 else acc.1, acc.2 + 1)) acc)
    (0, 0)

/-- The test `no_of_zeros * 1.0 / total_pixels > 0` of line 174 (`0 / 0` is NaN and fails). -/
def color_condition (subImg : Mat) : Bool :=
  let no_of_zeros := (countPixels subImg).1
  let total_pixels := (countPixels subImg).2
  if total_pixels = 0 then false
  else decide ((no_of_zeros : ℚ) * 1.0 / (total_pixels : ℚ) > 0)

/-- The body of the `for` loop over the contours (lines 136–186) for one contour. -/
def contourStep (cv : CvOps) (face : Rect) (RoI : Mat) (relative_area : ℚ)
    (eyes : List Rect) (c : Contour) : List Rect :=
  let area := cv.contourArea c
  let bounding_rect := cv.boundingRect c
  let x := bounding_rect.x
  let y := bounding_rect.y
  let width : ℚ := bounding_rect.width
  let height : ℚ := bounding_rect.height
  if area_condition area relative_area && width_condition width height
      && width_to_face width face && ellipse_condition area width height then
    if color_condition (RoI.roi bounding_rect) then
      eyes ++ [{ x := face.x + x, y := face.y + y
                 width := truncToInt width, height := truncToInt height }]
    else eyes
  else eyes

/-- One pass of the `for` loop of lines 134–187 at threshold `relative_area`. -/
def eyePass (cv : CvOps) (face : Rect) (RoI : Mat) (contours : List Contour)
    (relative_area : ℚ) (eyes : List Rect) : List Rect :=
  contours.foldl (contourStep cv face RoI relative_area) eyes

/-- The constant `relative_area_increment` of line 132. -/
def relative_area_increment : ℚ := 50

/-- The loop `do { … } while (eyes.size() == 0 && relative_area > 0)` of lines 133–189,
entered with the list `eyes` and the threshold `relative_area`. -/
def relaxLoop (cv : CvOps) (face : Rect) (RoI : Mat) (contours : List Contour)
    (eyes : List Rect) (relative_area : ℚ) : List Rect :=
  if (eyePass cv face RoI contours relative_area eyes).length = 0
      ∧ relative_area - relative_area_increment > 0 then
    relaxLoop cv face RoI contours (eyePass cv face RoI contours relative_area eyes)
      (relative_area - relative_area_increment)
  else eyePass cv face RoI contours relative_area eyes
termination_by (⌈relative_area⌉).toNat
decreasing_by
  rename_i h
  have hpos : 0 < ⌈relative_area - relative_area_increment⌉ := Int.ceil_pos.mpr h.2
  have hsub : ⌈relative_area - relative_area_increment⌉ = ⌈relative_area⌉ - 50 := by
    have : relative_area - relative_area_increment = relative_area - ((50 : Int) : ℚ) := by
      simp [relative_area_increment]
    rw [this, Int.ceil_sub_int]
  omega

/-- The eye candidate detector: `eyes` empty, `relative_area = 1000`, then the loop. -/
def detectEyes (cv : CvOps) (face : Rect) (RoI : Mat) (contours : List Contour) : List Rect :=
  relaxLoop cv face RoI contours [] 1000

/-! ## Pupil locator (lines 252–296) and radius normalisation (lines 298–305) -/

/-- The class `Pupil`: `center`, `radius` and `eye_index`. -/
structure Pupil where
  center : ℚ × ℚ
  radius : Int
  eye_index : Int
  deriving DecidableEq, Repr

/-- The member `Pupil::operator<`: comparison of the radii. -/
def Pupil.lt (p p1 : Pupil) : Bool := decide (p.radius < p1.radius)

/-- The comparator `vectorAreaSorter(v1, v2)`: `contourArea(v1) > contourArea(v2)`. -/
def vectorAreaSorter (cv : CvOps) (v1 v2 : Contour) : Bool :=
  decide (cv.contourArea v1 > cv.contourArea v2)

/-- The call `std::sort(first, last, comp)`: the result is ordered so that no element
is `comp`-before an earlier one.  The order of equivalent elements is left open by the
standard; the model keeps their input order. -/
def stdSort {α : Type} (comp : α → α → Bool) (l : List α) : List α :=
  l.insertionSort (fun a b => comp b a = false)

/-- The test `(contourArea(cnts[j]) * 1.0 / eyes[i].area()) < 0.8` of line 279.  For a
zero eye area the IEEE quotient is an infinity or NaN, and only `-inf` is below `0.8`. -/
def areaRatioBelow (cv : CvOps) (eye : Rect) (c : Contour) : Bool :=
  if eye.area = 0 then decide (cv.contourArea c * 1.0 < 0)
  else decide (cv.contourArea c * 1.0 / (eye.area : ℚ) < 0.8)

/-- The loop of lines 277–284 run on the contours from index `j` on (`cnts` is the part
of the vector not yet visited): the value of `max_cnt` after the loop. -/
def filterArea (cv : CvOps) (eye : Rect) : List Contour → Nat → Int
  | [], _ => -1
  | c :: rest, j => if areaRatioBelow cv eye c then (j : Int) else filterArea cv eye rest (j + 1)

/-- The body of the loop over the eyes (lines 270–295) for eye `i`, given the contours
`cnts` that `findContours` extracted from its mask: the pupil pushed, if any. -/
def locatePupil (cv : CvOps) (eye : Rect) (i : Nat) (cnts : List Contour) : Option Pupil :=
  if cnts.length > 0 then
    let sorted := stdSort (vectorAreaSorter cv) cnts
    let max_cnt := filterArea cv eye sorted 0
    if max_cnt ≠ -1 then
      match sorted.get? max_cnt.toNat with
      | some c =>
        some { center := (cv.minEnclosingCircle c).1
               radius := truncToInt (cv.minEnclosingCircle c).2
               eye_index := (i : Int) }
      | none => none
    else none
  else none

/-- The loop over the eyes (lines 254–296); `cntsOf i` are the contours of eye `i`. -/
def detectPupils (cv : CvOps) (eyes : List Rect) (cntsOf : Nat → List Contour) : List Pupil :=
  eyes.enum.foldl (fun pupils ie =>
    match locatePupil cv ie.2 ie.1 (cntsOf ie.1) with
    | some p => pupils ++ [p]
    | none => pupils) []

/-- The value of `max_radius` used for drawing (lines 298–305); `none` when the block
is skipped because there is no pupil. -/
def displayRadius (pupils : List Pupil) : Option Int :=
  if pupils.length ≠ 0 then
    let sorted := stdSort Pupil.lt pupils
    match sorted.get? (sorted.length - 1) with
    | some p =>
      let max_radius := p.radius
      if max_radius < 5 then some (max_radius * 3) else some max_radius
    | none => none
  else none

/-! ## Further parts of `main` -/

/-- The rectangle built in the branch commented `mirroring the right eye` (lines 234–235). -/
def mirrorRightBranch (face found_eye : Rect) : Rect :=
  { x := face.x + (face.x + face.width - (found_eye.x + found_eye.width))
    y := found_eye.y, width := found_eye.width, height := found_eye.height }

/-- The rectangle built in the branch commented `mirroring the left eye` (lines 240–241). -/
def mirrorLeftBranch (face found_eye : Rect) : Rect :=
  { x := face.x + face.width - (found_eye.x - face.x) - found_eye.width
    y := found_eye.y, width := found_eye.width, height := found_eye.height }

/-- The loop of lines 133–189 carrying, besides `eyes`, the list `tested` of the values
of `relative_area` at which a pass has been run. -/
def relaxLoopTrace (cv : CvOps) (face : Rect) (RoI : Mat) (contours : List Contour)
    (eyes : List Rect) (relative_area : ℚ) (tested : List ℚ) : List Rect × List ℚ :=
  if (eyePass cv face RoI contours relative_area eyes).length = 0
      ∧ relative_area - relative_area_increment > 0 then
    relaxLoopTrace cv face RoI contours (eyePass cv face RoI contours relative_area eyes)
      (relative_area - relative_area_increment) (tested ++ [relative_area])
  else (eyePass cv face RoI contours relative_area eyes, tested ++ [relative_area])
termination_by (⌈relative_area⌉).toNat
decreasing_by
  rename_i h
  have hpos : 0 < ⌈relative_area - relative_area_increment⌉ := Int.ceil_pos.mpr h.2
  have hsub : ⌈relative_area - relative_area_increment⌉ = ⌈relative_area⌉ - 50 := by
    have : relative_area - relative_area_increment = relative_area - ((50 : Int) : ℚ) := by
      simp [relative_area_increment]
    rw [this, Int.ceil_sub_int]
  omega

/-- The detector together with the thresholds at which it ran a pass, in order. -/
def detectEyesTrace (cv : CvOps) (face : Rect) (RoI : Mat) (contours : List Contour) :
    List Rect × List ℚ :=
  relaxLoopTrace cv face RoI contours [] 1000 []

/-- A call `circle(img(eyes[k]), center, radius, …)`: the eye region `eyes[k]` drawn on
(`none` when `k` is not an index of `eyes`), the center and the radius passed. -/
structure Circle where
  region : Option Rect
  center : ℚ × ℚ
  radius : Int
  deriving DecidableEq, Repr

/-- The element `eyes[k]` for an `int` index `k`; `none` when out of range. -/
def eyeAt (eyes : List Rect) (k : Int) : Option Rect :=
  if 0 ≤ k then eyes.get? k.toNat else none

/-- The block of lines 298–310: the calls to `circle`, in the order they are made. -/
def renderPupils (eyes : List Rect) (pupils : List Pupil) : List Circle :=
  match displayRadius pupils with
  | some max_radius =>
    (stdSort Pupil.lt pupils).map (fun (p : Pupil) =>
      { region := eyeAt eyes p.eye_index, center := p.center, radius := max_radius })
  | none => []

/-- What the program meets at one image index: `imread` gives an empty image, or an
image in which `detectMultiScale` finds no face, or an image with a face. -/
inductive ImageInput where
  | unreadable
  | noFace
  | withFace
  deriving DecidableEq, Repr

/-- The batch loop of lines 84–326 from index `img_id` on, with the images abstracted to
`inputOf`; `written` lists the indices for which `imwrite` was called.  The result is
that list and the value returned by `main`. -/
def batchFrom (inputOf : Nat → ImageInput) (number_of_images : Nat) (img_id : Nat)
    (written : List Nat) : List Nat × Int :=
  if img_id < number_of_images then
    match inputOf img_id with
    | ImageInput.unreadable => batchFrom inputOf number_of_images (img_id + 1) written
    | ImageInput.noFace => (written, 1)
    | ImageInput.withFace =>
      batchFrom inputOf number_of_images (img_id + 1) (written ++ [img_id])
  else (written, 0)
termination_by number_of_images - img_id

/-- The batch run of `main` from `starting_image` up to `number_of_images`. -/
def runBatch (inputOf : Nat → ImageInput) (starting_image number_of_images : Nat) :
    List Nat × Int :=
  batchFrom inputOf number_of_images starting_image []

/-- The function `main` with `starting_image = 0` and `number_of_images = 18`. -/
def main (inputOf : Nat → ImageInput) : List Nat × Int :=
  runBatch inputOf 0 18

/-! ## Line 151 in IEEE double arithmetic, and the detector that uses it -/

/-- The integer nearest to `x`, a tie going to the even neighbour. -/
def roundHalfEven (x : ℚ) : Int :=
  if x - ⌊x⌋ < 1 / 2 then ⌊x⌋
  else if 1 / 2 < x - ⌊x⌋ then ⌊x⌋ + 1
  else if ⌊x⌋ % 2 = 0 then ⌊x⌋ else ⌊x⌋ + 1

/-- The binary64 value nearest to `q`: 53 significant bits, round to nearest, ties to
even.  The exponent is not bounded (no overflow and no subnormal numbers, neither of
which the quantities of line 151 come near). -/
def roundDouble (q : ℚ) : ℚ :=
  if q = 0 then 0
  else (roundHalfEven (q / 2 ^ (Int.log 2 |q| - 52)) : ℚ) * 2 ^ (Int.log 2 |q| - 52)

/-- The product `a * b` of two doubles. -/
def dmul (a b : ℚ) : ℚ := roundDouble (a * b)

/-- The quotient `a / b` of two doubles, `b` not zero. -/
def ddiv (a b : ℚ) : ℚ := roundDouble (a / b)

/-- The difference `a - b` of two doubles. -/
def dsub (a b : ℚ) : ℚ := roundDouble (a - b)

/-- The test `abs(1 - (area / (PI * width / 2 * height / 2))) <= 0.6` of line 151 as the
program evaluates it: the literals `3.1415` and `0.6` are the nearest doubles, and each of
`PI * width`, `… / 2`, `… * height`, `… / 2`, `area / …`, `1 - …` is rounded.  For a zero
divisor the quotient is an infinity or NaN and the test fails. -/
def ellipse_condition_ieee (area width height : ℚ) : Bool :=
  if ddiv (dmul (ddiv (dmul (roundDouble PI) width) 2) height) 2 = 0 then false
  else decide (|dsub 1 (ddiv area (ddiv (dmul (ddiv (dmul (roundDouble PI) width) 2) height) 2))|
    ≤ roundDouble 0.6)

/-- The body of the `for` loop over the contours (lines 136–186) for one contour, with
line 151 in double arithmetic. -/
def contourStepIeee (cv : CvOps) (face : Rect) (RoI : Mat) (relative_area : ℚ)
    (eyes : List Rect) (c : Contour) : List Rect :=
  let area := cv.contourArea c
  let bounding_rect := cv.boundingRect c
  let x := bounding_rect.x
  let y := bounding_rect.y
  let width : ℚ := bounding_rect.width
  let height : ℚ := bounding_rect.height
  if area_condition area relative_area && width_condition width height
      && width_to_face width face && ellipse_condition_ieee area width height then
    if color_condition (RoI.roi bounding_rect) then
      eyes ++ [{ x := face.x + x, y := face.y + y
                 width := truncToInt width, height := truncToInt height }]
    else eyes
  else eyes

/-- One pass of the `for` loop of lines 134–187, with line 151 in double arithmetic. -/
def eyePassIeee (cv : CvOps) (face : Rect) (RoI : Mat) (contours : List Contour)
    (relative_area : ℚ) (eyes : List Rect) : List Rect :=
  contours.foldl (contourStepIeee cv face RoI relative_area) eyes

/-- The loop `do { … } while (eyes.size() == 0 && relative_area > 0)` of lines 133–189,
with line 151 in double arithmetic. -/
def relaxLoopIeee (cv : CvOps) (face : Rect) (RoI : Mat) (contours : List Contour)
    (eyes : List Rect) (relative_area : ℚ) : List Rect :=
  if (eyePassIeee cv face RoI contours relative_area eyes).length = 0
      ∧ relative_area - relative_area_increment > 0 then
    relaxLoopIeee cv face RoI contours (eyePassIeee cv face RoI contours relative_area eyes)
      (relative_area - relative_area_increment)
  else eyePassIeee cv face RoI contours relative_area eyes
termination_by (⌈relative_area⌉).toNat
decreasing_by
  rename_i h
  have hpos : 0 < ⌈relative_area - relative_area_increment⌉ := Int.ceil_pos.mpr h.2
  have hsub : ⌈relative_area - relative_area_increment⌉ = ⌈relative_area⌉ - 50 := by
    have : relative_area - relative_area_increment = relative_area - ((50 : Int) : ℚ) := by
      simp [relative_area_increment]
    rw [this, Int.ceil_sub_int]
  omega

/-- The eye candidate detector with line 151 in double arithmetic. -/
def detectEyesIeee (cv : CvOps) (face : Rect) (RoI : Mat) (contours : List Contour) :
    List Rect :=
  relaxLoopIeee cv face RoI contours [] 1000

/-! ## Notions used to state the properties -/

/-- The full acceptance test of the detector for contour `c` at threshold `t`: the four
structural tests of line 155 and the intensity test of line 179. -/
def accepted (cv : CvOps) (face : Rect) (RoI : Mat) (t : ℚ) (c : Contour) : Bool :=
  (area_condition (cv.contourArea c) t
    && width_condition ((cv.boundingRect c).width : ℚ) ((cv.boundingRect c).height : ℚ)
    && width_to_face ((cv.boundingRect c).width : ℚ) face
    && ellipse_condition (cv.contourArea c) ((cv.boundingRect c).width : ℚ)
        ((cv.boundingRect c).height : ℚ))
  && color_condition (RoI.roi (cv.boundingRect c))

/-- The bounding box of contour `c` in absolute image coordinates: the size of
`boundingRect(c)`, the position translated by the origin of the face. -/
def absoluteBox (cv : CvOps) (face : Rect) (c : Contour) : Rect :=
  { x := face.x + (cv.boundingRect c).x, y := face.y + (cv.boundingRect c).y
    width := (cv.boundingRect c).width, height := (cv.boundingRect c).height }

/-- The pixel of `subImg` in column `x`, row `y` is brighter than 180. -/
def brightAt (subImg : Mat) (x y : Nat) : Bool :=
  decide (subImg.atUchar (y : Int) (x : Int) > 180)

/-- The boxes of the contours accepted at threshold `t`, in contour order. -/
def passResult (cv : CvOps) (face : Rect) (RoI : Mat) (contours : List Contour) (t : ℚ) :
    List Rect :=
  (contours.filter (accepted cv face RoI t)).map (absoluteBox cv face)

/-- Two candidates on the same side of the midline `face.y + face.width / 2` used by the
program: both `y` above it or both `y` below it. -/
def sameSide (face : Rect) (e0 e1 : Rect) : Prop :=
  (e0.y < face.y + Int.tdiv face.width 2 ∧ e1.y < face.y + Int.tdiv face.width 2)
  ∨ (e0.y > face.y + Int.tdiv face.width 2 ∧ e1.y > face.y + Int.tdiv face.width 2)

/-- The full acceptance test of `detectEyesIeee` for contour `c` at threshold `t`. -/
def acceptedIeee (cv : CvOps) (face : Rect) (RoI : Mat) (t : ℚ) (c : Contour) : Bool :=
  (area_condition (cv.contourArea c) t
    && width_condition ((cv.boundingRect c).width : ℚ) ((cv.boundingRect c).height : ℚ)
    && width_to_face ((cv.boundingRect c).width : ℚ) face
    && ellipse_condition_ieee (cv.contourArea c) ((cv.boundingRect c).width : ℚ)
        ((cv.boundingRect c).height : ℚ))
  && color_condition (RoI.roi (cv.boundingRect c))

/-- The boxes of the contours that `detectEyesIeee` accepts at threshold `t`. -/
def passResultIeee (cv : CvOps) (face : Rect) (RoI : Mat) (contours : List Contour) (t : ℚ) :
    List Rect :=
  (contours.filter (acceptedIeee cv face RoI t)).map (absoluteBox cv face)

/-- The threshold schedule `1000, 950, …, 50` (twenty values, largest first). -/
def schedule : List ℚ := (List.range 20).map (fun (k : Nat) => 1000 - 50 * (k : ℚ))

/-- The ellipse-likeness test as the specification writes it, with the number π:
`|1 − area / (π · (width/2) · (height/2))| ≤ 0.6`. -/
def ellipseLikePi (area width height : ℝ) : Prop :=
  |1 - area / (Real.pi * (width / 2) * (height / 2))| ≤ 0.6

/-! ## Sample inputs -/

/-- Sample primitives for the detector: a contour of `n` points has a bounding box of
size `39 × 30` at `(10 · n, 20)`; its area is `400 · n` for `n ≤ 2` and `300` otherwise. -/
def sampleCv : CvOps :=
  { contourArea := fun c => if c.length ≤ 2 then 400 * (c.length : ℚ) else 300
    boundingRect := fun c => ⟨10 * (c.length : Int), 20, 39, 30⟩
    minEnclosingCircle := fun _ => ((19, 15), 25) }

/-- Sample primitives for the pupil locator: a contour of `n` points has area `250 · n`
and an enclosing circle of radius `n + 17/2` centred at `(15, 10)`. -/
def samplePupilCv : CvOps :=
  { contourArea := fun c => 250 * (c.length : ℚ)
    boundingRect := fun _ => ⟨2, 2, 26, 16⟩
    minEnclosingCircle := fun c => ((15, 10), (c.length : ℚ) + 17 / 2) }

/-- Sample face box. -/
def sampleFace : Rect := ⟨5, 7, 120, 120⟩

/-- Sample face image: `120 × 120`, every pixel of intensity 200. -/
def sampleRoI : Mat := { rows := 120, cols := 120, atUchar := fun _ _ => 200 }

/-- Sample contours with one, two and three points. -/
def sampleContours : List Contour := [[(0, 0)], [(0, 0), (1, 1)], [(0, 0), (1, 1), (2, 2)]]

/-- Primitives for the small-area example: area `49.5`, bounding box `13 × 10` at
`(20, 20)`. -/
def smallCv : CvOps :=
  { contourArea := fun _ => 49.5
    boundingRect := fun _ => ⟨20, 20, 13, 10⟩
    minEnclosingCircle := fun _ => ((6, 5), 8) }

/-- Primitives for the boundary example: area `3141.5`, bounding box `200 × 50` at
`(10, 10)`; the exact deviation `|1 − 3141.5 / (3.1415 · 100 · 25)|` is `0.6`. -/
def boundaryCv : CvOps :=
  { contourArea := fun _ => 3141.5
    boundingRect := fun _ => ⟨10, 10, 200, 50⟩
    minEnclosingCircle := fun _ => ((100, 25), 104) }

/-- Face box of the boundary example. -/
def boundaryFace : Rect := ⟨0, 0, 900, 600⟩

/-- Face image of the boundary example: `900 × 600`, every pixel of intensity 255. -/
def boundaryRoI : Mat := { rows := 600, cols := 900, atUchar := fun _ _ => 255 }

/-- Primitives for the π example: area `31415.5`, bounding box `400 × 250` at `(10, 10)`. -/
def piCv : CvOps :=
  { contourArea := fun _ => 31415.5
    boundingRect := fun _ => ⟨10, 10, 400, 250⟩
    minEnclosingCircle := fun _ => ((200, 125), 236) }

/-- Face box of the π example. -/
def piFace : Rect := ⟨0, 0, 1200, 900⟩

/-- Face image of the π example: `1200 × 900`, every pixel of intensity 255. -/
def piRoI : Mat := { rows := 900, cols := 1200, atUchar := fun _ _ => 255 }

/-! ## Eye set resolver: properties -/

/-- The erase loop leaves a one-element list alone when its box is not below the bound. -/
theorem eraseLoop_singleton_keep (bound : Int) (E : Rect) (h : bound ≤ E.x) :
    eraseLoop bound [E] 0 = [E] := by
  rw [eraseLoop]
  simp [not_lt.mpr h]
  rw [eraseLoop]
  simp

/-- Both branches of the mirroring fallback give the same `x`. -/
theorem mirrorEye_x (face E : Rect) :
    (mirrorEye face E).x = 2 * face.x + face.width - E.x - E.width := by
  unfold mirrorEye
  split <;> simp <;> ring

/-- The mirrored box keeps `y`, `width` and `height`. -/
theorem mirrorEye_rest (face E : Rect) :
    (mirrorEye face E).y = E.y ∧ (mirrorEye face E).width = E.width
      ∧ (mirrorEye face E).height = E.height := by
  unfold mirrorEye
  split <;> simp

/-- Two rectangles with the same four fields are equal. -/
theorem Rect.ext_fields {a b : Rect} (hx : a.x = b.x) (hy : a.y = b.y)
    (hw : a.width = b.width) (hh : a.height = b.height) : a = b := by
  cases a; cases b; simp_all

/-- C1 (as stated, refuted): on image 13 the one-element eye list `[E]` with
`E.x < face.x + face.height / 2` is resolved to the empty list, and on any other image an
eye centred on the face is resolved to two boxes that are both equal to `E`. -/
theorem resolveEyes_singleton_counterexample :
    ¬ ((resolveEyes 13 ⟨0, 0, 100, 100⟩ [⟨40, 30, 20, 10⟩]).length = 2
        ∧ (resolveEyes 13 ⟨0, 0, 100, 100⟩ [⟨40, 30, 20, 10⟩]).count ⟨40, 30, 20, 10⟩ = 1)
    ∧ ¬ ((resolveEyes 0 ⟨0, 0, 100, 100⟩ [⟨40, 30, 20, 10⟩]).length = 2
        ∧ (resolveEyes 0 ⟨0, 0, 100, 100⟩ [⟨40, 30, 20, 10⟩]).count ⟨40, 30, 20, 10⟩ = 1) := by
  have h13 : resolveEyes 13 ⟨0, 0, 100, 100⟩ [⟨40, 30, 20, 10⟩] = [] := by
    simp [resolveEyes, image13Correction, eraseLoop, sameSidePair, mirrorFallback, Int.tdiv]
  have h0 : resolveEyes 0 ⟨0, 0, 100, 100⟩ [⟨40, 30, 20, 10⟩] = [⟨40, 30, 20, 10⟩, ⟨40, 30, 20, 10⟩] := by
    simp [resolveEyes, mirrorFallback, mirrorEye]
  rw [h13, h0]
  constructor <;> decide

/-- C1 (amended): for an image other than 13, or on image 13 when
`E.x ≥ face.x + face.height / 2`, the resolver turns the one-element list `[E]` into
exactly two boxes, `E` followed by its mirror image; exactly one of the two equals `E`
if and only if `E` is not centred on the face (`2·E.x + E.width ≠ 2·face.x + face.width`). -/
theorem resolveEyes_singleton (img_id : Int) (face E : Rect)
    (h : img_id ≠ 13 ∨ face.x + Int.tdiv face.height 2 ≤ E.x) :
    resolveEyes img_id face [E] = [E, mirrorEye face E]
      ∧ (resolveEyes img_id face [E]).length = 2
      ∧ ((resolveEyes img_id face [E]).count E = 1
          ↔ 2 * E.x + E.width ≠ 2 * face.x + face.width) := by
  have hres : resolveEyes img_id face [E] = [E, mirrorEye face E] := by
    unfold resolveEyes
    by_cases hid : img_id = 13
    · have hb : face.x + Int.tdiv face.height 2 ≤ E.x := by
        rcases h with h | h
        · exact absurd hid h
        · exact h
      simp [hid, image13Correction, eraseLoop_singleton_keep _ _ hb, sameSidePair,
        mirrorFallback]
    · simp [hid, mirrorFallback]
  refine ⟨hres, by rw [hres]; rfl, ?_⟩
  rw [hres]
  have hx := mirrorEye_x face E
  obtain ⟨hy, hw, hh⟩ := mirrorEye_rest face E
  by_cases hm : mirrorEye face E = E
  · have : 2 * E.x + E.width = 2 * face.x + face.width := by rw [hm] at hx; omega
    simp [hm, this]
  · have hne : 2 * E.x + E.width ≠ 2 * face.x + face.width := by
      intro hc
      exact hm (Rect.ext_fields (by omega) hy hw hh)
    simp [List.count_cons, hm, hne]

/-- Witness for `resolveEyes_singleton`: image 13, face `(0,0,100,100)`, eye
`(60,30,20,10)`, which the bound `50` does not remove. -/
theorem resolveEyes_singleton_witness :
    resolveEyes 13 ⟨0, 0, 100, 100⟩ [⟨60, 30, 20, 10⟩]
        = [⟨60, 30, 20, 10⟩, mirrorEye ⟨0, 0, 100, 100⟩ ⟨60, 30, 20, 10⟩]
      ∧ (resolveEyes 13 ⟨0, 0, 100, 100⟩ [⟨60, 30, 20, 10⟩]).length = 2
      ∧ ((resolveEyes 13 ⟨0, 0, 100, 100⟩ [⟨60, 30, 20, 10⟩]).count ⟨60, 30, 20, 10⟩ = 1
          ↔ 2 * (60 : Int) + 20 ≠ 2 * 0 + 100) :=
  resolveEyes_singleton 13 ⟨0, 0, 100, 100⟩ ⟨60, 30, 20, 10⟩ (Or.inr (by decide))

/-- C2: mirroring is an involution.  For every face box and every eye box (in particular
every eye box strictly inside the face), mirroring the eye across the face and mirroring
the result again gives back the eye box, field by field. -/
theorem mirrorEye_involutive (face E : Rect) :
    mirrorEye face (mirrorEye face E) = E := by
  obtain ⟨hy, hw, hh⟩ := mirrorEye_rest face E
  obtain ⟨hy2, hw2, hh2⟩ := mirrorEye_rest face (mirrorEye face E)
  have hx := mirrorEye_x face E
  have hx2 := mirrorEye_x face (mirrorEye face E)
  exact Rect.ext_fields (by omega) (by omega) (by omega) (by omega)

/-- C10: mirror geometry.  When exactly one eye `E` was detected, the fallback appends one
box `m` with the `y`, `width` and `height` of `E`, whose gap to the left edge of the face
(`m.x - face.x`) equals the gap of `E` to the right edge
(`(face.x + face.width) - (E.x + E.width)`). -/
theorem mirrorFallback_geometry (face E : Rect) :
    ∃ m : Rect, mirrorFallback face [E] = [E, m]
      ∧ m.y = E.y ∧ m.width = E.width ∧ m.height = E.height
      ∧ m.x - face.x = (face.x + face.width) - (E.x + E.width) := by
  obtain ⟨hy, hw, hh⟩ := mirrorEye_rest face E
  have hx := mirrorEye_x face E
  exact ⟨mirrorEye face E, by simp [mirrorFallback], hy, hw, hh, by omega⟩

/-- C5 (the code at a failing input): on image 13 with face `(100,100,200,200)` the bound
is `200`; both candidates have `x < 200`, yet the erase loop removes only the first one,
because after `erase` the index moves past the element that took its place.  Filtering
by `x ≥ 200` would leave nothing. -/
theorem eraseLoop_skips_after_erase :
    eraseLoop ((100 : Int) + Int.tdiv 200 2) [⟨120, 150, 40, 20⟩, ⟨130, 160, 40, 20⟩] 0
        = [⟨130, 160, 40, 20⟩]
    ∧ ([⟨120, 150, 40, 20⟩, ⟨130, 160, 40, 20⟩] : List Rect).filter
        (fun e => decide ((100 : Int) + Int.tdiv 200 2 ≤ e.x)) = []
    ∧ resolveEyes 13 ⟨100, 100, 200, 200⟩ [⟨120, 150, 40, 20⟩, ⟨130, 160, 40, 20⟩]
        = [⟨130, 160, 40, 20⟩, ⟨230, 160, 40, 20⟩] := by
  refine ⟨?_, ?_, ?_⟩
  · simp [eraseLoop, Int.tdiv]
  · simp [Int.tdiv]
  · simp [resolveEyes, image13Correction, eraseLoop, sameSidePair, mirrorFallback,
      mirrorEye, Int.tdiv]

/-- C6 (the code at a failing input): face `(0,0,100,100)` has `mid_way = 50`; the two
candidates have `y = 10` and `y = 20`, both above it.  The code compares the `x` fields
(`60 > 55`) and erases the second candidate, so it keeps the upper box (`y = 10`) and
discards the lower one (`y = 20`). -/
theorem sameSidePair_keeps_upper :
    sameSidePair ⟨0, 0, 100, 100⟩ [⟨60, 10, 20, 10⟩, ⟨55, 20, 20, 10⟩] = [⟨60, 10, 20, 10⟩]
    ∧ image13Correction ⟨0, 0, 100, 100⟩ [⟨60, 10, 20, 10⟩, ⟨55, 20, 20, 10⟩]
        = [⟨60, 10, 20, 10⟩]
    ∧ (⟨60, 10, 20, 10⟩ : Rect).y < (⟨55, 20, 20, 10⟩ : Rect).y
    ∧ (⟨55, 20, 20, 10⟩ : Rect).y < (⟨0, 0, 100, 100⟩ : Rect).y
        + Int.tdiv (⟨0, 0, 100, 100⟩ : Rect).width 2 := by
  refine ⟨?_, ?_, ?_, ?_⟩
  · simp [sameSidePair, Int.tdiv]
  · simp [image13Correction, eraseLoop, sameSidePair, Int.tdiv]
  · decide
  · decide

/-! ## Eye candidate detector: properties -/

/-- Converting an `int` to `double` and back gives the same `int`. -/
theorem truncToInt_intCast (n : Int) : truncToInt (n : ℚ) = n := by
  unfold truncToInt
  split <;> simp

/-- The inner pixel loop adds the number of bright pixels and the number of pixels. -/
theorem innerLoop_eq (p : Nat → Bool) (ys : List Nat) (acc : Nat × Nat) :
    ys.foldl (fun acc y => (if p y then acc.1 + 1 else acc.1, acc.2 + 1)) acc
      = (acc.1 + ys.countP p, acc.2 + ys.length) := by
  induction ys generalizing acc with
  | nil => simp
  | cons y ys ih =>
    simp only [List.foldl_cons, ih, List.countP_cons, List.length_cons]
    by_cases hp : p y = true
    · simp [hp]; omega
    · simp [hp]; omega

/-- The outer pixel loop adds, column by column, what the inner loop counts. -/
theorem outerLoop_eq (p : Nat → Nat → Bool) (ys xs : List Nat) (acc : Nat × Nat) :
    xs.foldl (fun acc x =>
        ys.foldl (fun acc y => (if p x y then acc.1 + 1 else acc.1, acc.2 + 1)) acc) acc
      = (acc.1 + (xs.map (fun x => ys.countP (p x))).sum, acc.2 + xs.length * ys.length) := by
  induction xs generalizing acc with
  | nil => simp
  | cons x xs ih =>
    simp only [List.foldl_cons, innerLoop_eq (p x), ih, List.map_cons, List.sum_cons,
      List.length_cons]
    ext
    · simp; omega
    · simp; ring

/-- What `countPixels` returns: the number of pixels above 180 and `cols * rows`. -/
theorem countPixels_eq (subImg : Mat) :
    countPixels subImg
      = (((List.range subImg.cols).map (fun x => (List.range subImg.rows).countP
            (brightAt subImg x))).sum,
         subImg.cols * subImg.rows) := by
  unfold countPixels
  have h := outerLoop_eq (brightAt subImg) (List.range subImg.rows) (List.range subImg.cols)
    (0, 0)
  simp only [brightAt, decide_eq_true_eq] at h
  rw [h]
  simp [brightAt]

/-- The intensity test holds exactly when the sub-image has a pixel above 180. -/
theorem color_condition_iff (subImg : Mat) :
    color_condition subImg = true
      ↔ ∃ x y : Nat, x < subImg.cols ∧ y < subImg.rows
          ∧ subImg.atUchar (y : Int) (x : Int) > 180 := by
  unfold color_condition
  rw [countPixels_eq]
  simp only
  constructor
  · intro h
    split at h
    · simp at h
    · simp only [gt_iff_lt, decide_eq_true_eq] at h
      by_contra hcon
      have h0 : ((List.range subImg.cols).map (fun x => (List.range subImg.rows).countP
            (brightAt subImg x))).sum = 0 := by
        apply List.sum_eq_zero
        intro n hn
        obtain ⟨x, hx, rfl⟩ := List.mem_map.mp hn
        rw [List.countP_eq_zero]
        intro y hy hb
        apply hcon
        exact ⟨x, y, List.mem_range.mp hx, List.mem_range.mp hy, by simpa [brightAt] using hb⟩
      rw [h0] at h
      simp at h
  · rintro ⟨x, y, hx, hy, hp⟩
    have hpos : 0 < (List.range subImg.rows).countP (brightAt subImg x) :=
      List.countP_pos_iff.mpr ⟨y, List.mem_range.mpr hy, by simpa [brightAt] using hp⟩
    have hle : (List.range subImg.rows).countP (brightAt subImg x)
        ≤ ((List.range subImg.cols).map (fun x => (List.range subImg.rows).countP
            (brightAt subImg x))).sum :=
      List.single_le_sum (by intro a _; exact Nat.zero_le a) _
        (List.mem_map.mpr ⟨x, List.mem_range.mpr hx, rfl⟩)
    have htot : subImg.cols * subImg.rows ≠ 0 := by
      have : 0 < subImg.cols * subImg.rows := Nat.mul_pos (by omega) (by omega)
      omega
    rw [if_neg htot]
    simp only [gt_iff_lt, decide_eq_true_eq]
    have h1 : (0 : ℚ) < (((List.range subImg.cols).map (fun x => (List.range subImg.rows).countP
            (brightAt subImg x))).sum : ℕ) := by
      exact_mod_cast lt_of_lt_of_le hpos hle
    have h2 : (0 : ℚ) < ((subImg.cols * subImg.rows : ℕ) : ℚ) := by
      exact_mod_cast Nat.pos_of_ne_zero htot
    have h3 : (0 : ℚ) < (1.0 : ℚ) := by norm_num
    exact div_pos (mul_pos h1 h3) h2

/-- One contour either appends its absolute box (when accepted) or changes nothing. -/
theorem contourStep_eq (cv : CvOps) (face : Rect) (RoI : Mat) (t : ℚ) (eyes : List Rect)
    (c : Contour) :
    contourStep cv face RoI t eyes c
      = if accepted cv face RoI t c then eyes ++ [absoluteBox cv face c] else eyes := by
  unfold contourStep accepted absoluteBox
  simp only [truncToInt_intCast]
  by_cases h1 : (area_condition (cv.contourArea c) t
      && width_condition ((cv.boundingRect c).width : ℚ) ((cv.boundingRect c).height : ℚ)
      && width_to_face ((cv.boundingRect c).width : ℚ) face
      && ellipse_condition (cv.contourArea c) ((cv.boundingRect c).width : ℚ)
          ((cv.boundingRect c).height : ℚ)) = true
  · by_cases h2 : color_condition (RoI.roi (cv.boundingRect c)) = true
    · simp [h1, h2]
    · simp [h1, h2]
  · simp [h1]

/-- One pass appends the boxes of the contours accepted at its threshold. -/
theorem eyePass_eq (cv : CvOps) (face : Rect) (RoI : Mat) (contours : List Contour) (t : ℚ)
    (eyes : List Rect) :
    eyePass cv face RoI contours t eyes = eyes ++ passResult cv face RoI contours t := by
  unfold eyePass passResult
  induction contours generalizing eyes with
  | nil => simp
  | cons c cs ih =>
    rw [List.foldl_cons, ih, contourStep_eq]
    by_cases h : accepted cv face RoI t c = true
    · simp [h, List.filter_cons]
    · simp [h, List.filter_cons]

/-- The loop entered with an empty list: either this pass decides, or the next one does. -/
theorem relaxLoop_nil (cv : CvOps) (face : Rect) (RoI : Mat) (contours : List Contour)
    (t : ℚ) :
    relaxLoop cv face RoI contours [] t
      = if passResult cv face RoI contours t = [] ∧ t - 50 > 0 then
          relaxLoop cv face RoI contours [] (t - 50)
        else passResult cv face RoI contours t := by
  rw [relaxLoop]
  simp only [eyePass_eq, List.nil_append, relative_area_increment, List.length_eq_zero]
  by_cases h : passResult cv face RoI contours t = [] ∧ t - 50 > 0
  · rw [if_pos h, if_pos h, h.1]
  · rw [if_neg h, if_neg h]

/-- Started at threshold `50 * (k + 1)`, the loop returns the pass at `50 * (j + 1)` when
that pass is non-empty and every pass at a larger threshold of the run is empty. -/
theorem relaxLoop_first_hit (cv : CvOps) (face : Rect) (RoI : Mat) (contours : List Contour)
    (j : Nat) :
    ∀ k : Nat, j ≤ k → passResult cv face RoI contours (50 * ((j : ℚ) + 1)) ≠ [] →
      (∀ i : Nat, j < i → i ≤ k → passResult cv face RoI contours (50 * ((i : ℚ) + 1)) = []) →
      relaxLoop cv face RoI contours [] (50 * ((k : ℚ) + 1))
        = passResult cv face RoI contours (50 * ((j : ℚ) + 1)) := by
  intro k
  induction k with
  | zero =>
    intro hjk hne _
    have hj : j = 0 := by omega
    subst hj
    rw [relaxLoop_nil, if_neg]
    intro hcon
    exact hne hcon.1
  | succ k ih =>
    intro hjk hne hall
    rw [relaxLoop_nil]
    by_cases hj : j = k + 1
    · subst hj
      rw [if_neg]
      intro hcon
      exact hne hcon.1
    · have hk : passResult cv face RoI contours (50 * (((k + 1 : ℕ) : ℚ) + 1)) = [] :=
        hall (k + 1) (by omega) (le_refl _)
      have hpos : (50 : ℚ) * (((k + 1 : ℕ) : ℚ) + 1) - 50 > 0 := by
        push_cast
        have : (0 : ℚ) ≤ (k : ℚ) := Nat.cast_nonneg k
        linarith
      rw [if_pos ⟨hk, hpos⟩]
      have heq : (50 : ℚ) * (((k + 1 : ℕ) : ℚ) + 1) - 50 = 50 * ((k : ℚ) + 1) := by
        push_cast; ring
      rw [heq]
      exact ih (by omega) hne (fun i h1 h2 => hall i h1 (by omega))

/-- Started at threshold `50 * (k + 1)`, the loop returns the empty list when every pass
of the run is empty. -/
theorem relaxLoop_no_hit (cv : CvOps) (face : Rect) (RoI : Mat) (contours : List Contour) :
    ∀ k : Nat,
      (∀ i : Nat, i ≤ k → passResult cv face RoI contours (50 * ((i : ℚ) + 1)) = []) →
      relaxLoop cv face RoI contours [] (50 * ((k : ℚ) + 1)) = [] := by
  intro k
  induction k with
  | zero =>
    intro hall
    have h0 := hall 0 (le_refl _)
    rw [relaxLoop_nil, if_neg, h0]
    intro hcon
    have := hcon.2
    norm_num at this
  | succ k ih =>
    intro hall
    rw [relaxLoop_nil]
    have hk := hall (k + 1) (le_refl _)
    have hpos : (50 : ℚ) * (((k + 1 : ℕ) : ℚ) + 1) - 50 > 0 := by
      push_cast
      have : (0 : ℚ) ≤ (k : ℚ) := Nat.cast_nonneg k
      linarith
    rw [if_pos ⟨hk, hpos⟩]
    have heq : (50 : ℚ) * (((k + 1 : ℕ) : ℚ) + 1) - 50 = 50 * ((k : ℚ) + 1) := by
      push_cast; ring
    rw [heq]
    exact ih (fun i hi => hall i (by omega))

/-- The thresholds of the schedule are the values `50 * (i + 1)` with `i < 20`. -/
theorem mem_schedule_iff (t : ℚ) :
    t ∈ schedule ↔ ∃ i : Nat, i < 20 ∧ t = 50 * ((i : ℚ) + 1) := by
  unfold schedule
  simp only [List.mem_map, List.mem_range]
  constructor
  · rintro ⟨k, hk, rfl⟩
    refine ⟨19 - k, by omega, ?_⟩
    have : ((19 - k : ℕ) : ℚ) = 19 - (k : ℚ) := by
      rw [Nat.cast_sub (by omega)]; norm_num
    rw [this]; ring
  · rintro ⟨i, hi, rfl⟩
    refine ⟨19 - i, by omega, ?_⟩
    have : ((19 - i : ℕ) : ℚ) = 19 - (i : ℚ) := by
      rw [Nat.cast_sub (by omega)]; norm_num
    rw [this]; ring

/-- A pass is non-empty exactly when some contour is accepted at its threshold. -/
theorem passResult_ne_nil_iff (cv : CvOps) (face : Rect) (RoI : Mat) (contours : List Contour)
    (t : ℚ) :
    passResult cv face RoI contours t ≠ [] ↔ ∃ c ∈ contours, accepted cv face RoI t c = true := by
  unfold passResult
  simp [List.filter_eq_nil_iff]

/-- When some pass of the run started at `50 * (k + 1)` is non-empty, the loop returns
one of the non-empty passes of the run. -/
theorem relaxLoop_exists_hit (cv : CvOps) (face : Rect) (RoI : Mat) (contours : List Contour) :
    ∀ k : Nat,
      (∃ i : Nat, i ≤ k ∧ passResult cv face RoI contours (50 * ((i : ℚ) + 1)) ≠ []) →
      ∃ j : Nat, j ≤ k ∧ passResult cv face RoI contours (50 * ((j : ℚ) + 1)) ≠ []
        ∧ relaxLoop cv face RoI contours [] (50 * ((k : ℚ) + 1))
            = passResult cv face RoI contours (50 * ((j : ℚ) + 1)) := by
  intro k
  induction k with
  | zero =>
    rintro ⟨i, hi, hne⟩
    have h0 : i = 0 := by omega
    subst h0
    exact ⟨0, le_refl _, hne, relaxLoop_first_hit cv face RoI contours 0 0 (le_refl _) hne
      (fun i h1 h2 => by omega)⟩
  | succ k ih =>
    rintro ⟨i, hi, hne⟩
    by_cases hk : passResult cv face RoI contours (50 * (((k + 1 : ℕ) : ℚ) + 1)) = []
    · have hik : i ≤ k := by
        by_contra hcon
        have : i = k + 1 := by omega
        subst this
        exact hne hk
      obtain ⟨j, hj, hjne, hres⟩ := ih ⟨i, hik, hne⟩
      refine ⟨j, by omega, hjne, ?_⟩
      rw [relaxLoop_nil]
      have hpos : (50 : ℚ) * (((k + 1 : ℕ) : ℚ) + 1) - 50 > 0 := by
        push_cast
        have : (0 : ℚ) ≤ (k : ℚ) := Nat.cast_nonneg k
        linarith
      rw [if_pos ⟨hk, hpos⟩]
      have heq : (50 : ℚ) * (((k + 1 : ℕ) : ℚ) + 1) - 50 = 50 * ((k : ℚ) + 1) := by
        push_cast; ring
      rw [heq]
      exact hres
    · exact ⟨k + 1, le_refl _, hk,
        relaxLoop_first_hit cv face RoI contours (k + 1) (k + 1) (le_refl _) hk
          (fun i h1 h2 => by omega)⟩

/-- The detector is the loop run from `1000 = 50 * (19 + 1)`. -/
theorem detectEyes_eq (cv : CvOps) (face : Rect) (RoI : Mat) (contours : List Contour) :
    detectEyes cv face RoI contours
      = relaxLoop cv face RoI contours [] (50 * (((19 : ℕ) : ℚ) + 1)) := by
  unfold detectEyes
  norm_num

/-- A single contour accepted at some threshold of the schedule is returned alone. -/
theorem detectEyes_singleton_accepted (cv : CvOps) (face : Rect) (RoI : Mat) (c : Contour)
    (t : ℚ) (ht : t ∈ schedule) (hacc : accepted cv face RoI t c = true) :
    detectEyes cv face RoI [c] = [absoluteBox cv face c] := by
  obtain ⟨i, hi, rfl⟩ := (mem_schedule_iff t).mp ht
  have hne : passResult cv face RoI [c] (50 * ((i : ℚ) + 1)) ≠ [] :=
    (passResult_ne_nil_iff cv face RoI [c] _).mpr ⟨c, List.mem_singleton.mpr rfl, hacc⟩
  obtain ⟨j, _, hjne, hres⟩ := relaxLoop_exists_hit cv face RoI [c] 19 ⟨i, by omega, hne⟩
  rw [detectEyes_eq, hres]
  obtain ⟨c', hc', hacc'⟩ := (passResult_ne_nil_iff cv face RoI [c] _).mp hjne
  have : c' = c := List.mem_singleton.mp hc'
  subst this
  simp [passResult, List.filter_cons, hacc']

/-- C3: threshold relaxation keeps a single pass.  If `t` is the largest threshold of the
schedule `1000, 950, …, 50` at which some contour is accepted, the detector returns
exactly the boxes of the contours accepted at `t`, in contour order, each once; if no
threshold of the schedule accepts a contour, it returns the empty list. -/
theorem detectEyes_single_pass (cv : CvOps) (face : Rect) (RoI : Mat)
    (contours : List Contour) :
    (∀ t ∈ schedule, (∃ c ∈ contours, accepted cv face RoI t c = true) →
        (∀ t' ∈ schedule, (∃ c ∈ contours, accepted cv face RoI t' c = true) → t' ≤ t) →
        detectEyes cv face RoI contours
          = (contours.filter (accepted cv face RoI t)).map (absoluteBox cv face))
    ∧ ((∀ t ∈ schedule, ¬ ∃ c ∈ contours, accepted cv face RoI t c = true) →
        detectEyes cv face RoI contours = []) := by
  constructor
  · intro t ht hacc hmax
    obtain ⟨j, hj, rfl⟩ := (mem_schedule_iff t).mp ht
    rw [detectEyes_eq]
    have hne := (passResult_ne_nil_iff cv face RoI contours _).mpr hacc
    have hres := relaxLoop_first_hit cv face RoI contours j 19 (by omega) hne (by
      intro i hji hi
      by_contra hcon
      have hle := hmax (50 * ((i : ℚ) + 1)) ((mem_schedule_iff _).mpr ⟨i, by omega, rfl⟩)
        ((passResult_ne_nil_iff cv face RoI contours _).mp hcon)
      have hlt : (j : ℚ) < (i : ℚ) := by exact_mod_cast hji
      linarith)
    rw [hres]
    rfl
  · intro hnone
    rw [detectEyes_eq]
    apply relaxLoop_no_hit
    intro i hi
    by_contra hcon
    exact hnone (50 * ((i : ℚ) + 1)) ((mem_schedule_iff _).mpr ⟨i, by omega, rfl⟩)
      ((passResult_ne_nil_iff cv face RoI contours _).mp hcon)

/-- A contour accepted at threshold `t` has area at least `t`. -/
theorem accepted_area (cv : CvOps) (face : Rect) (RoI : Mat) (t : ℚ) (c : Contour)
    (h : accepted cv face RoI t c = true) : t ≤ cv.contourArea c := by
  simp only [accepted, area_condition, Bool.and_eq_true, decide_eq_true_eq] at h
  exact h.1.1.1.1

/-- A contour accepted at some threshold passes the ellipse test of the program. -/
theorem accepted_ellipse (cv : CvOps) (face : Rect) (RoI : Mat) (t : ℚ) (c : Contour)
    (h : accepted cv face RoI t c = true) :
    ellipse_condition (cv.contourArea c) ((cv.boundingRect c).width : ℚ)
      ((cv.boundingRect c).height : ℚ) = true := by
  simp only [accepted, Bool.and_eq_true] at h
  exact h.1.2

/-- The ellipse test of the program agrees with the rational formula
`|1 − area / (PI · (width/2) · (height/2))| ≤ 0.6`. -/
theorem ellipse_condition_iff (area width height : ℚ) :
    ellipse_condition area width height = true
      ↔ |1 - area / (PI * (width / 2) * (height / 2))| ≤ 0.6 := by
  have hden : PI * width / 2 * height / 2 = PI * (width / 2) * (height / 2) := by ring
  unfold ellipse_condition
  rw [hden]
  by_cases h0 : PI * (width / 2) * (height / 2) = 0
  · rw [if_pos h0, h0]
    norm_num
  · rw [if_neg h0]
    simp

/-- Every positive-size sub-image of the sample face image has a bright pixel. -/
theorem sample_color_condition (r : Rect) (hw : 0 < r.width) (hh : 0 < r.height) :
    color_condition (sampleRoI.roi r) = true := by
  rw [color_condition_iff]
  refine ⟨0, 0, ?_, ?_, ?_⟩
  · simp only [Mat.roi, Int.lt_toNat]; exact_mod_cast hw
  · simp only [Mat.roi, Int.lt_toNat]; exact_mod_cast hh
  · simp [Mat.roi, sampleRoI]

/-- The sample contour with two points (area 800) is accepted at threshold 800. -/
theorem sample_accepted_800 :
    accepted sampleCv sampleFace sampleRoI 800 [(0, 0), (1, 1)] = true := by
  simp only [accepted, sample_color_condition (sampleCv.boundingRect [(0, 0), (1, 1)])
    (by simp [sampleCv]) (by simp [sampleCv])]
  simp [area_condition, width_condition, width_to_face, ellipse_condition, sampleCv,
    sampleFace, PI, Int.tdiv]
  norm_num [abs_le]

/-- The sample contour with one point (area 400) is rejected at threshold 800. -/
theorem sample_rejected_small : accepted sampleCv sampleFace sampleRoI 800 [(0, 0)] = false := by
  simp [accepted, area_condition, sampleCv]
  intro h
  norm_num at h

/-- The sample contour with three points (area 300) fails the ellipse test. -/
theorem sample_rejected_ellipse (t : ℚ) :
    accepted sampleCv sampleFace sampleRoI t [(0, 0), (1, 1), (2, 2)] = false := by
  rw [Bool.eq_false_iff]
  intro h
  have he := (ellipse_condition_iff _ _ _).mp (accepted_ellipse _ _ _ _ _ h)
  simp only [sampleCv, PI] at he
  norm_num [abs_le] at he

/-- Witness for `detectEyes_single_pass`: on the sample input the largest accepting
threshold is 800 and the output is the single box of the two-point contour; on an empty
contour list the output is empty. -/
theorem detectEyes_single_pass_witness :
    detectEyes sampleCv sampleFace sampleRoI sampleContours
        = (sampleContours.filter (accepted sampleCv sampleFace sampleRoI 800)).map
            (absoluteBox sampleCv sampleFace)
    ∧ (sampleContours.filter (accepted sampleCv sampleFace sampleRoI 800)).map
            (absoluteBox sampleCv sampleFace) = [⟨25, 27, 39, 30⟩]
    ∧ detectEyes sampleCv sampleFace sampleRoI [] = [] := by
  refine ⟨(detectEyes_single_pass sampleCv sampleFace sampleRoI sampleContours).1 800
      ((mem_schedule_iff 800).mpr ⟨15, by norm_num, by norm_num⟩)
      ⟨[(0, 0), (1, 1)], by simp [sampleContours], sample_accepted_800⟩ ?_, ?_,
    (detectEyes_single_pass sampleCv sampleFace sampleRoI []).2 (by simp)⟩
  · rintro t' _ ⟨c, hc, hacc⟩
    simp only [sampleContours, List.mem_cons, List.mem_singleton, List.not_mem_nil,
      or_false] at hc
    rcases hc with rfl | rfl | rfl
    · have := accepted_area _ _ _ _ _ hacc
      simp only [sampleCv] at this
      norm_num at this
      linarith
    · have := accepted_area _ _ _ _ _ hacc
      simp only [sampleCv] at this
      norm_num at this
      linarith
    · rw [sample_rejected_ellipse] at hacc
      exact absurd hacc (by simp)
  · simp only [sampleContours, List.filter_cons, sample_accepted_800, sample_rejected_small,
      sample_rejected_ellipse]
    simp [absoluteBox, sampleCv, sampleFace]

/-- C9 (as stated, refuted): with area `31415.5` and bounding box `400 × 250` the
deviation computed with the number π is above `0.6` (since `31415.5 < 10000·π`), so no
contour of the list satisfies the ellipse test written with π; the program, which uses
`PI = 3.1415`, accepts the contour at threshold 1000 and returns its box. -/
theorem detectEyes_pi_counterexample :
    (∀ c ∈ ([[(0, 0)]] : List Contour),
        ¬ ellipseLikePi ((piCv.contourArea c : ℚ) : ℝ)
            (((piCv.boundingRect c).width : ℤ) : ℝ) (((piCv.boundingRect c).height : ℤ) : ℝ))
    ∧ detectEyes piCv piFace piRoI [[(0, 0)]] = [⟨10, 10, 400, 250⟩] := by
  constructor
  · intro c _
    simp only [ellipseLikePi, piCv]
    have hpi := Real.pi_gt_d6
    have hpos : (0 : ℝ) < Real.pi := Real.pi_pos
    have hden : (0 : ℝ) < Real.pi * (((400 : ℤ) : ℝ) / 2) * (((250 : ℤ) : ℝ) / 2) := by
      push_cast; positivity
    have hlt : (((31415.5 : ℚ) : ℝ)) / (Real.pi * (((400 : ℤ) : ℝ) / 2) * (((250 : ℤ) : ℝ) / 2))
        < 0.4 := by
      rw [div_lt_iff₀ hden]
      push_cast
      norm_num
      linarith
    intro habs
    have := (abs_le.mp habs).2
    norm_num at this hlt
    linarith
  · have hacc : accepted piCv piFace piRoI 1000 [(0, 0)] = true := by
      have hcol : color_condition (piRoI.roi (piCv.boundingRect [(0, 0)])) = true := by
        rw [color_condition_iff]
        exact ⟨0, 0, by simp [Mat.roi, piCv], by simp [Mat.roi, piCv],
          by simp [Mat.roi, piRoI]⟩
      simp only [accepted, hcol]
      simp [area_condition, width_condition, width_to_face, ellipse_condition, piCv, piFace,
        PI, Int.tdiv]
      norm_num [abs_le]
    have h := detectEyes_singleton_accepted piCv piFace piRoI [(0, 0)] 1000
      ((mem_schedule_iff 1000).mpr ⟨19, by norm_num, by norm_num⟩) hacc
    rw [h]
    simp [absoluteBox, piCv, piFace]

/-- C9 (amended): when no contour satisfies the ellipse test with the program's constant,
`|1 − area / (PI·(width/2)·(height/2))| ≤ 0.6` with `PI = 3.1415`, the detector returns
the empty list after exhausting the threshold schedule. -/
theorem detectEyes_no_ellipse (cv : CvOps) (face : Rect) (RoI : Mat) (contours : List Contour)
    (h : ∀ c ∈ contours,
      ¬ |1 - cv.contourArea c / (PI * (((cv.boundingRect c).width : ℚ) / 2)
          * (((cv.boundingRect c).height : ℚ) / 2))| ≤ 0.6) :
    detectEyes cv face RoI contours = [] := by
  rw [detectEyes_eq]
  apply relaxLoop_no_hit
  intro i _
  by_contra hcon
  obtain ⟨c, hc, hacc⟩ := (passResult_ne_nil_iff cv face RoI contours _).mp hcon
  exact h c hc ((ellipse_condition_iff _ _ _).mp (accepted_ellipse _ _ _ _ _ hacc))

/-- Witness for `detectEyes_no_ellipse`: the sample contour with three points has area
300 in a `39 × 30` box, a deviation above `0.6`; the detector returns nothing. -/
theorem detectEyes_no_ellipse_witness :
    detectEyes sampleCv sampleFace sampleRoI [[(0, 0), (1, 1), (2, 2)]] = [] :=
  detectEyes_no_ellipse sampleCv sampleFace sampleRoI [[(0, 0), (1, 1), (2, 2)]] (by
    intro c hc
    rw [List.mem_singleton.mp hc]
    simp only [sampleCv, PI]
    norm_num [abs_le])

/-! ## Pupil locator and radius normalisation: properties -/

/-- In a list ordered pairwise by a reflexive relation, every element is related to the
element at the last index. -/
theorem rel_last_of_pairwise {α : Type} (r : α → α → Prop) (hrefl : ∀ a, r a a) :
    ∀ (l : List α) (p : α), l.Pairwise r → l.get? (l.length - 1) = some p →
      ∀ q ∈ l, r q p := by
  intro l
  induction l with
  | nil => intro p _ h; simp at h
  | cons a l ih =>
    intro p hpw hlast q hq
    rw [List.pairwise_cons] at hpw
    cases l with
    | nil =>
      simp at hlast hq
      subst hlast; subst hq
      exact hrefl _
    | cons b l =>
      have hlast' : (b :: l).get? ((b :: l).length - 1) = some p := by
        simpa using hlast
      rcases List.mem_cons.mp hq with rfl | hq'
      · exact hpw.1 p (List.get?_mem hlast')
      · exact ih p hpw.2 hlast' q hq'

/-- The result of `stdSort` is a permutation of its input. -/
theorem stdSort_perm {α : Type} (comp : α → α → Bool) (l : List α) :
    (stdSort comp l).Perm l :=
  List.perm_insertionSort _ l

/-- Sorting pupils with `operator<` orders them by non-decreasing radius. -/
theorem stdSort_pupils_pairwise (pupils : List Pupil) :
    (stdSort Pupil.lt pupils).Pairwise (fun a b => a.radius ≤ b.radius) := by
  haveI : IsTotal Pupil (fun a b => Pupil.lt b a = false) :=
    ⟨fun a b => by simp only [Pupil.lt, decide_eq_false_iff_not, not_lt]; exact le_total _ _⟩
  haveI : IsTrans Pupil (fun a b => Pupil.lt b a = false) :=
    ⟨fun a b c => by
      simp only [Pupil.lt, decide_eq_false_iff_not, not_lt]; exact le_trans⟩
  have h := List.sorted_insertionSort (fun a b => Pupil.lt b a = false) pupils
  unfold stdSort
  refine List.Pairwise.imp ?_ h
  intro a b hab
  simpa [Pupil.lt] using hab

/-- C7: radius normalisation.  For a non-empty list of pupils, let `m` be the maximum
stored radius (the radius of the last pupil after sorting); the display radius is `m`
when `m ≥ 5` and `3·m` when `m < 5`. -/
theorem displayRadius_spec (pupils : List Pupil) (hne : pupils ≠ []) :
    ∃ m : Int, (∃ p ∈ pupils, p.radius = m) ∧ (∀ p ∈ pupils, p.radius ≤ m)
      ∧ (stdSort Pupil.lt pupils).getLast?.map Pupil.radius = some m
      ∧ displayRadius pupils = some (if 5 ≤ m then m else 3 * m) := by
  have hperm := stdSort_perm Pupil.lt pupils
  have hlen : (stdSort Pupil.lt pupils).length = pupils.length := hperm.length_eq
  have hpos : 0 < pupils.length := List.length_pos.mpr hne
  have hidx : (stdSort Pupil.lt pupils).length - 1 < (stdSort Pupil.lt pupils).length := by
    omega
  obtain ⟨p, hp⟩ : ∃ p, (stdSort Pupil.lt pupils).get? ((stdSort Pupil.lt pupils).length - 1)
      = some p := ⟨_, List.get?_eq_get hidx⟩
  have hmax := rel_last_of_pairwise (fun a b : Pupil => a.radius ≤ b.radius)
    (fun a => le_refl _) _ p (stdSort_pupils_pairwise pupils) hp
  refine ⟨p.radius, ⟨p, hperm.subset (List.get?_mem hp), rfl⟩,
    fun q hq => hmax q (hperm.symm.subset hq), ?_, ?_⟩
  · rw [List.getLast?_eq_getElem?, ← List.get?_eq_getElem?, hp]
    rfl
  · unfold displayRadius
    rw [if_pos (by omega)]
    simp only [hp]
    by_cases h5 : p.radius < 5
    · rw [if_pos h5, if_neg (by omega)]
      congr 1
      ring
    · rw [if_neg h5, if_pos (by omega)]

/-- Witness for `displayRadius_spec`: radii `2, 3, 4` give the display radius `12` and
radii `6, 8` give `8`. -/
theorem displayRadius_spec_witness :
    displayRadius [⟨(1, 1), 3, 0⟩, ⟨(2, 2), 4, 1⟩, ⟨(3, 3), 2, 2⟩] = some 12
    ∧ displayRadius [⟨(1, 1), 8, 0⟩, ⟨(2, 2), 6, 1⟩] = some 8 := by
  constructor
  · obtain ⟨m, ⟨p, hp, hm⟩, hmax, _, hres⟩ :=
      displayRadius_spec [⟨(1, 1), 3, 0⟩, ⟨(2, 2), 4, 1⟩, ⟨(3, 3), 2, 2⟩] (by simp)
    have h4 := hmax ⟨(2, 2), 4, 1⟩ (by simp)
    have hm4 : m = 4 := by
      simp only [List.mem_cons, List.mem_singleton, List.not_mem_nil, or_false] at hp
      rcases hp with rfl | rfl | rfl <;> simp at hm h4 <;> omega
    rw [hres, hm4]
    rfl
  · obtain ⟨m, ⟨p, hp, hm⟩, hmax, _, hres⟩ :=
      displayRadius_spec [⟨(1, 1), 8, 0⟩, ⟨(2, 2), 6, 1⟩] (by simp)
    have h8 := hmax ⟨(1, 1), 8, 0⟩ (by simp)
    have hm8 : m = 8 := by
      simp only [List.mem_cons, List.mem_singleton, List.not_mem_nil, or_false] at hp
      rcases hp with rfl | rfl <;> simp at hm h8 <;> omega
    rw [hres, hm8]
    rfl

/-- What the selection loop returns: `-1` when no contour passes the ratio test,
otherwise the index of the first contour that passes it. -/
theorem filterArea_spec (cv : CvOps) (eye : Rect) :
    ∀ (l : List Contour) (j : Nat),
      (filterArea cv eye l j = -1 ∧ ∀ c ∈ l, areaRatioBelow cv eye c = false)
      ∨ ∃ n : Nat, ∃ c : Contour, l.get? n = some c
          ∧ filterArea cv eye l j = ((j + n : Nat) : Int)
          ∧ areaRatioBelow cv eye c = true
          ∧ ∀ m : Nat, m < n → ∀ d : Contour, l.get? m = some d →
              areaRatioBelow cv eye d = false := by
  intro l
  induction l with
  | nil => intro j; left; simp [filterArea]
  | cons a l ih =>
    intro j
    by_cases ha : areaRatioBelow cv eye a = true
    · right
      refine ⟨0, a, by simp, by simp [filterArea, ha], ha, ?_⟩
      intro m hm
      omega
    · have ha' : areaRatioBelow cv eye a = false := by simpa using ha
      rcases ih (j + 1) with ⟨h1, h2⟩ | ⟨n, c, hget, hidx, hc, hbefore⟩
      · left
        refine ⟨by simp [filterArea, ha', h1], ?_⟩
        intro c hc
        rcases List.mem_cons.mp hc with rfl | hc'
        · exact ha'
        · exact h2 c hc'
      · right
        refine ⟨n + 1, c, by simpa using hget, ?_, hc, ?_⟩
        · simp only [filterArea, ha', Bool.false_eq_true, if_false, hidx]
          push_cast
          ring
        · intro m hm d hd
          cases m with
          | zero =>
            simp at hd
            subst hd
            exact ha'
          | succ m => exact hbefore m (by omega) d (by simpa using hd)

/-- For an eye box of positive area the ratio test of the program is the rational
comparison `area / eyeArea < 0.8`. -/
theorem areaRatioBelow_iff (cv : CvOps) (eye : Rect) (c : Contour) (hw : 0 < eye.width)
    (hh : 0 < eye.height) :
    areaRatioBelow cv eye c = true ↔ cv.contourArea c / (eye.area : ℚ) < 0.8 := by
  have hpos : 0 < eye.area := Int.mul_pos hw hh
  unfold areaRatioBelow
  rw [if_neg (by omega)]
  have h1 : cv.contourArea c * 1.0 = cv.contourArea c := by norm_num
  rw [h1]
  simp

/-- The pupil locator produces a pupil exactly when some contour passes the ratio test. -/
theorem locatePupil_isSome (cv : CvOps) (eye : Rect) (i : Nat) (cnts : List Contour) :
    (locatePupil cv eye i cnts).isSome = true
      ↔ ∃ c ∈ cnts, areaRatioBelow cv eye c = true := by
  have hperm := stdSort_perm (vectorAreaSorter cv) cnts
  unfold locatePupil
  by_cases hlen : cnts.length > 0
  · rw [if_pos hlen]
    simp only
    rcases filterArea_spec cv eye (stdSort (vectorAreaSorter cv) cnts) 0 with
      ⟨h1, h2⟩ | ⟨n, c, hget, hidx, hc, _⟩
    · rw [h1]
      simp only [ne_eq, not_true_eq_false, if_false, Option.isSome_none, Bool.false_eq_true,
        false_iff, not_exists, not_and]
      intro c hc
      rw [h2 c (hperm.symm.subset hc)]
      simp
    · rw [hidx]
      have hne : ((0 + n : Nat) : Int) ≠ -1 := by omega
      rw [if_pos hne]
      have hto : ((0 + n : Nat) : Int).toNat = n := by simp
      rw [hto, hget]
      simp only [Option.isSome_some, true_iff]
      exact ⟨c, hperm.subset (List.get?_mem hget), hc⟩
  · rw [if_neg hlen]
    have : cnts = [] := List.length_eq_zero.mp (by omega)
    subst this
    simp

/-- C8: pupil boundary policy.  For an eye box (positive width and height) and the
contours of its mask, a pupil candidate is produced if and only if some contour has
`area / eyeArea < 0.8`; in particular a single contour with `area / eyeArea ≥ 0.8` yields
no candidate, and so does a mask without contours. -/
theorem locatePupil_boundary (cv : CvOps) (eye : Rect) (i : Nat) (cnts : List Contour)
    (hw : 0 < eye.width) (hh : 0 < eye.height) :
    ((locatePupil cv eye i cnts).isSome = true
        ↔ ∃ c ∈ cnts, cv.contourArea c / (eye.area : ℚ) < 0.8)
    ∧ (∀ c : Contour, cv.contourArea c / (eye.area : ℚ) ≥ 0.8 →
        locatePupil cv eye i [c] = none)
    ∧ locatePupil cv eye i [] = none := by
  refine ⟨?_, ?_, ?_⟩
  · rw [locatePupil_isSome]
    constructor
    · rintro ⟨c, hc, hb⟩
      exact ⟨c, hc, (areaRatioBelow_iff cv eye c hw hh).mp hb⟩
    · rintro ⟨c, hc, hb⟩
      exact ⟨c, hc, (areaRatioBelow_iff cv eye c hw hh).mpr hb⟩
  · intro c hc
    have hnot : ¬ ((locatePupil cv eye i [c]).isSome = true) := by
      rw [locatePupil_isSome]
      rintro ⟨c', hc', hb⟩
      rw [List.mem_singleton.mp hc'] at hb
      have := (areaRatioBelow_iff cv eye c hw hh).mp hb
      exact absurd this (not_lt.mpr hc)
    simpa using hnot
  · have hnot : ¬ ((locatePupil cv eye i []).isSome = true) := by
      rw [locatePupil_isSome]
      simp
    simpa using hnot

/-- Witness for `locatePupil_boundary`: eye box `30 × 20` (area 600) with the sample
pupil primitives; the one-point contour (area 250, ratio below `0.8`) gives a pupil, the
two-point contour (area 500, ratio above `0.8`) alone gives none. -/
theorem locatePupil_boundary_witness :
    (locatePupil samplePupilCv ⟨40, 50, 30, 20⟩ 0 [[(0, 0), (1, 1)], [(0, 0)]]).isSome = true
    ∧ locatePupil samplePupilCv ⟨40, 50, 30, 20⟩ 0 [[(0, 0), (1, 1)]] = none
    ∧ locatePupil samplePupilCv ⟨40, 50, 30, 20⟩ 0 [] = none := by
  have h := locatePupil_boundary samplePupilCv ⟨40, 50, 30, 20⟩ 0 [[(0, 0), (1, 1)], [(0, 0)]]
    (by decide) (by decide)
  have h1 := locatePupil_boundary samplePupilCv ⟨40, 50, 30, 20⟩ 0 [] (by decide) (by decide)
  refine ⟨h.1.mpr ⟨[(0, 0)], by simp, ?_⟩, h.2.1 [(0, 0), (1, 1)] ?_, h1.2.2⟩
  · simp [samplePupilCv, Rect.area]; norm_num
  · simp [samplePupilCv, Rect.area]; norm_num

/-! ## Eye set resolver: pass-through and branch agreement -/

/-- The erase loop changes nothing when no candidate is below the bound. -/
theorem eraseLoop_keep_all (bound : Int) :
    ∀ (n : Nat) (eyes : List Rect) (i : Nat), eyes.length - i = n →
      (∀ e ∈ eyes, bound ≤ e.x) → eraseLoop bound eyes i = eyes := by
  intro n
  induction n with
  | zero =>
    intro eyes i hn _
    rw [eraseLoop, dif_neg (by omega)]
  | succ n ih =>
    intro eyes i hn hall
    rw [eraseLoop]
    have hi : i < eyes.length := by omega
    rw [dif_pos hi]
    have hx : ¬ (eyes.get ⟨i, hi⟩).x < bound :=
      not_lt.mpr (hall _ (List.get_mem eyes i hi))
    rw [if_neg hx]
    exact ih eyes (i + 1) (by omega) hall

/-- The mirroring fallback changes nothing unless the list has exactly one element. -/
theorem mirrorFallback_of_length_ne_one (face : Rect) (eyes : List Rect)
    (h : eyes.length ≠ 1) : mirrorFallback face eyes = eyes := by
  unfold mirrorFallback
  split
  · simp at h
  · rfl

/-- The same-side block changes nothing unless the list is a pair on the same side. -/
theorem sameSidePair_of_not_sameSide (face : Rect) (eyes : List Rect)
    (h : ∀ e0 e1 : Rect, eyes = [e0, e1] → ¬ sameSide face e0 e1) :
    sameSidePair face eyes = eyes := by
  unfold sameSidePair
  split
  · rename_i e0 e1
    have hns := h e0 e1 rfl
    unfold sameSide at hns
    simp only
    rw [if_pos]
    by_contra hcon
    apply hns
    omega
  · rfl

/-- C11: pass-through of eye lists that need no repair.  On an image other than 13 a
list of length 0 or at least 2 is returned unchanged.  On image 13 a list of at least 2
candidates, none with `x` below `face.x + face.height / 2` and not a same-side pair, is
returned unchanged. -/
theorem resolveEyes_pass_through (img_id : Int) (face : Rect) (eyes : List Rect) :
    (img_id ≠ 13 → (eyes.length = 0 ∨ 2 ≤ eyes.length) →
        resolveEyes img_id face eyes = eyes)
    ∧ (2 ≤ eyes.length → (∀ e ∈ eyes, face.x + Int.tdiv face.height 2 ≤ e.x) →
        (∀ e0 e1 : Rect, eyes = [e0, e1] → ¬ sameSide face e0 e1) →
        resolveEyes 13 face eyes = eyes) := by
  constructor
  · intro hid hlen
    unfold resolveEyes
    rw [if_neg hid]
    exact mirrorFallback_of_length_ne_one face eyes (by omega)
  · intro hlen hall hpair
    unfold resolveEyes image13Correction
    rw [if_pos rfl, eraseLoop_keep_all _ _ eyes 0 rfl hall,
      sameSidePair_of_not_sameSide face eyes hpair]
    exact mirrorFallback_of_length_ne_one face eyes (by omega)

/-- Witness for `resolveEyes_pass_through`: face `(0,0,100,100)`; on image 4 an empty
list and a list of three boxes come back unchanged, and on image 13 the pair with
`y = 30` and `y = 60` (on different sides of `mid_way = 50`, both `x ≥ 50`) does too. -/
theorem resolveEyes_pass_through_witness :
    resolveEyes 4 ⟨0, 0, 100, 100⟩ [] = []
    ∧ resolveEyes 4 ⟨0, 0, 100, 100⟩ [⟨10, 30, 26, 13⟩, ⟨60, 30, 26, 13⟩, ⟨40, 70, 30, 15⟩]
        = [⟨10, 30, 26, 13⟩, ⟨60, 30, 26, 13⟩, ⟨40, 70, 30, 15⟩]
    ∧ resolveEyes 13 ⟨0, 0, 100, 100⟩ [⟨55, 30, 26, 13⟩, ⟨60, 60, 26, 13⟩]
        = [⟨55, 30, 26, 13⟩, ⟨60, 60, 26, 13⟩] := by
  refine ⟨(resolveEyes_pass_through 4 ⟨0, 0, 100, 100⟩ []).1 (by decide) (by simp),
    (resolveEyes_pass_through 4 ⟨0, 0, 100, 100⟩ _).1 (by decide) (by simp),
    (resolveEyes_pass_through 13 ⟨0, 0, 100, 100⟩ _).2 (by simp) ?_ ?_⟩
  · intro e he
    simp only [List.mem_cons, List.mem_singleton, List.not_mem_nil, or_false] at he
    rcases he with rfl | rfl <;> simp [Int.tdiv]
  · intro e0 e1 h
    simp only [List.cons.injEq, and_true] at h
    obtain ⟨rfl, rfl⟩ := h
    simp [sameSide, Int.tdiv]

/-- C18: the orientation test of the mirroring fallback does not affect the result.  The
box built in the `mirroring the right eye` branch equals the box built in the
`mirroring the left eye` branch: both have `x = 2·face.x + face.width − eye.x − eye.width`
and the `y`, `width`, `height` of the eye; the fallback pushes one of the two. -/
theorem mirror_branches_agree (face eye : Rect) :
    mirrorRightBranch face eye = mirrorLeftBranch face eye
    ∧ (mirrorRightBranch face eye).x = 2 * face.x + face.width - eye.x - eye.width
    ∧ (mirrorLeftBranch face eye).x = 2 * face.x + face.width - eye.x - eye.width
    ∧ (mirrorRightBranch face eye).y = eye.y
    ∧ (mirrorRightBranch face eye).width = eye.width
    ∧ (mirrorRightBranch face eye).height = eye.height
    ∧ mirrorEye face eye
        = (if eye.x - face.x > (face.x + face.width) - (eye.x + eye.width)
            then mirrorRightBranch face eye else mirrorLeftBranch face eye) := by
  refine ⟨?_, ?_, ?_, rfl, rfl, rfl, rfl⟩
  · exact Rect.ext_fields (by simp only [mirrorRightBranch, mirrorLeftBranch]; ring)
      rfl rfl rfl
  · simp only [mirrorRightBranch]; ring
  · simp only [mirrorLeftBranch]; ring

/-- C17: the width-to-face test agrees with the specification despite integer division.
For a positive integer contour width `w` and a positive integer face width, the test
`w ≤ face.width / 3` of the program (integer division) holds if and only if
`w ≤ face.width / 3` over the rationals, that is `3·w ≤ face.width`. -/
theorem width_to_face_iff (w : Int) (face : Rect) (_hw : 0 < w) (hf : 0 < face.width) :
    (width_to_face (w : ℚ) face = true ↔ (w : ℚ) ≤ (face.width : ℚ) / 3)
    ∧ ((w : ℚ) ≤ (face.width : ℚ) / 3 ↔ 3 * w ≤ face.width) := by
  have hq : (w : ℚ) ≤ (face.width : ℚ) / 3 ↔ 3 * w ≤ face.width := by
    constructor
    · intro h
      have : (3 : ℚ) * (w : ℚ) ≤ (face.width : ℚ) := by linarith
      exact_mod_cast this
    · intro h
      have : (3 : ℚ) * (w : ℚ) ≤ (face.width : ℚ) := by exact_mod_cast h
      linarith
  refine ⟨?_, hq⟩
  rw [hq]
  unfold width_to_face
  simp only [decide_eq_true_eq]
  rw [Int.tdiv_eq_ediv (le_of_lt hf) (by norm_num)]
  constructor
  · intro h
    have h1 : w ≤ face.width / 3 := by exact_mod_cast h
    omega
  · intro h
    have h1 : w ≤ face.width / 3 := by omega
    exact_mod_cast h1

/-- Witness for `width_to_face_iff`: width 5 in a face of width 16 (`16 / 3 = 5`). -/
theorem width_to_face_iff_witness :
    (width_to_face ((5 : Int) : ℚ) ⟨0, 0, 16, 16⟩ = true
        ↔ ((5 : Int) : ℚ) ≤ (((⟨0, 0, 16, 16⟩ : Rect).width : Int) : ℚ) / 3)
    ∧ (((5 : Int) : ℚ) ≤ (((⟨0, 0, 16, 16⟩ : Rect).width : Int) : ℚ) / 3
        ↔ 3 * (5 : Int) ≤ (⟨0, 0, 16, 16⟩ : Rect).width) :=
  width_to_face_iff 5 ⟨0, 0, 16, 16⟩ (by decide) (by decide)

/-! ## Eye candidate detector: schedule and minimum area -/

/-- The instrumented loop entered with an empty list: one step. -/
theorem relaxLoopTrace_nil (cv : CvOps) (face : Rect) (RoI : Mat) (contours : List Contour)
    (t : ℚ) (tested : List ℚ) :
    relaxLoopTrace cv face RoI contours [] t tested
      = if passResult cv face RoI contours t = [] ∧ t - 50 > 0 then
          relaxLoopTrace cv face RoI contours [] (t - 50) (tested ++ [t])
        else (passResult cv face RoI contours t, tested ++ [t]) := by
  rw [relaxLoopTrace]
  simp only [eyePass_eq, List.nil_append, relative_area_increment, List.length_eq_zero]
  by_cases h : passResult cv face RoI contours t = [] ∧ t - 50 > 0
  · rw [if_pos h, if_pos h, h.1]
  · rw [if_neg h, if_neg h]

/-- The instrumented loop started at `50 * (k + 1)` runs `n` passes, `1 ≤ n ≤ k + 1`, at
the thresholds `50 * (k + 1) - 50 * i` for `i < n`; all passes but the last are empty,
the last one is the result, and it is non-empty when the run stops early. -/
theorem relaxLoopTrace_run (cv : CvOps) (face : Rect) (RoI : Mat) (contours : List Contour) :
    ∀ (k : Nat) (tested : List ℚ), ∃ n : Nat, 1 ≤ n ∧ n ≤ k + 1
      ∧ relaxLoopTrace cv face RoI contours [] (50 * ((k : ℚ) + 1)) tested
          = (relaxLoop cv face RoI contours [] (50 * ((k : ℚ) + 1)),
             tested ++ (List.range n).map (fun (i : Nat) => 50 * ((k : ℚ) + 1) - 50 * (i : ℚ)))
      ∧ (∀ i : Nat, i < n - 1 →
          passResult cv face RoI contours (50 * ((k : ℚ) + 1) - 50 * (i : ℚ)) = [])
      ∧ (n < k + 1 →
          passResult cv face RoI contours (50 * ((k : ℚ) + 1) - 50 * ((n - 1 : Nat) : ℚ)) ≠ [])
      ∧ relaxLoop cv face RoI contours [] (50 * ((k : ℚ) + 1))
          = passResult cv face RoI contours (50 * ((k : ℚ) + 1) - 50 * ((n - 1 : Nat) : ℚ)) := by
  intro k
  induction k with
  | zero =>
    intro tested
    refine ⟨1, le_refl _, le_refl _, ?_, ?_, ?_, ?_⟩
    · rw [relaxLoopTrace_nil, relaxLoop_nil, if_neg, if_neg]
      · simp [List.range_succ]
      · intro h; have := h.2; norm_num at this
      · intro h; have := h.2; norm_num at this
    · intro i hi; omega
    · intro h; omega
    · rw [relaxLoop_nil, if_neg]
      · simp
      · intro h; have := h.2; norm_num at this
  | succ k ih =>
    intro tested
    by_cases hk : passResult cv face RoI contours (50 * (((k + 1 : ℕ) : ℚ) + 1)) = []
    · have hpos : (50 : ℚ) * (((k + 1 : ℕ) : ℚ) + 1) - 50 > 0 := by
        push_cast
        have : (0 : ℚ) ≤ (k : ℚ) := Nat.cast_nonneg k
        linarith
      have heq : (50 : ℚ) * (((k + 1 : ℕ) : ℚ) + 1) - 50 = 50 * ((k : ℚ) + 1) := by
        push_cast; ring
      obtain ⟨n, hn1, hn2, htr, hempty, hearly, hres⟩ :=
        ih (tested ++ [50 * (((k + 1 : ℕ) : ℚ) + 1)])
      have hshift : ∀ i : Nat, (50 : ℚ) * (((k + 1 : ℕ) : ℚ) + 1) - 50 * ((i + 1 : ℕ) : ℚ)
          = 50 * ((k : ℚ) + 1) - 50 * (i : ℚ) := by
        intro i; push_cast; ring
      refine ⟨n + 1, by omega, by omega, ?_, ?_, ?_, ?_⟩
      · rw [relaxLoopTrace_nil, relaxLoop_nil, if_pos ⟨hk, hpos⟩, if_pos ⟨hk, hpos⟩, heq, htr]
        congr 1
        rw [List.range_succ_eq_map, List.map_cons, List.map_map, List.append_assoc]
        congr 1
        simp only [List.singleton_append, Nat.cast_zero, mul_zero, sub_zero]
        congr 1
        apply List.map_congr_left
        intro i _
        simp only [Function.comp, Nat.succ_eq_add_one]
        exact (hshift i).symm
      · intro i hi
        cases i with
        | zero => simpa using hk
        | succ i =>
          rw [hshift i]
          exact hempty i (by omega)
      · intro hlt
        have hn : n + 1 - 1 = (n - 1) + 1 := by omega
        rw [hn, hshift (n - 1)]
        exact hearly (by omega)
      · rw [relaxLoop_nil, if_pos ⟨hk, hpos⟩, heq, hres]
        have hn : n + 1 - 1 = (n - 1) + 1 := by omega
        rw [hn, hshift (n - 1)]
    · refine ⟨1, le_refl _, by omega, ?_, ?_, ?_, ?_⟩
      · rw [relaxLoopTrace_nil, relaxLoop_nil, if_neg (fun h => hk h.1),
          if_neg (fun h => hk h.1)]
        simp [List.range_succ]
      · intro i hi; omega
      · intro _; simpa using hk
      · rw [relaxLoop_nil, if_neg (fun h => hk h.1)]
        simp

/-- The first `n` thresholds of the schedule are `1000 - 50 * i` for `i < n`. -/
theorem schedule_take (n : Nat) (hn : n ≤ 20) :
    schedule.take n = (List.range n).map (fun (i : Nat) => 1000 - 50 * (i : ℚ)) := by
  unfold schedule
  rw [← List.map_take, List.take_range, Nat.min_eq_left hn]

/-- C16: the relaxation loop terminates for every contour list.  Started at threshold
1000 and decreasing by 50 per pass, it runs `n` passes with `1 ≤ n ≤ 20`, at the first `n`
thresholds of `1000, 950, …, 50` in that order; every pass before the last yields no
candidate, the last pass is the result, and the run stops before the twentieth pass only
when its last pass yielded a candidate. -/
theorem detectEyes_passes (cv : CvOps) (face : Rect) (RoI : Mat) (contours : List Contour) :
    ∃ n : Nat, 1 ≤ n ∧ n ≤ 20
      ∧ detectEyesTrace cv face RoI contours
          = (detectEyes cv face RoI contours, schedule.take n)
      ∧ (∀ t ∈ schedule.take (n - 1), passResult cv face RoI contours t = [])
      ∧ (∀ t : ℚ, schedule.get? (n - 1) = some t →
          detectEyes cv face RoI contours = passResult cv face RoI contours t)
      ∧ (n < 20 → detectEyes cv face RoI contours ≠ []) := by
  obtain ⟨n, hn1, hn2, htr, hempty, hearly, hres⟩ := relaxLoopTrace_run cv face RoI contours 19 []
  have h1000 : (50 : ℚ) * (((19 : ℕ) : ℚ) + 1) = 1000 := by norm_num
  rw [h1000] at htr hres
  simp only [h1000] at hempty hearly
  have hlast : schedule.get? (n - 1) = some (1000 - 50 * ((n - 1 : ℕ) : ℚ)) := by
    unfold schedule
    rw [List.get?_eq_getElem?, List.getElem?_map, List.getElem?_range (by omega)]
    rfl
  refine ⟨n, hn1, hn2, ?_, ?_, ?_, ?_⟩
  · unfold detectEyesTrace detectEyes
    rw [htr, schedule_take n hn2]
    simp
  · intro t ht
    rw [schedule_take (n - 1) (by omega)] at ht
    obtain ⟨i, hi, rfl⟩ := List.mem_map.mp ht
    exact hempty i (List.mem_range.mp hi)
  · intro t ht
    rw [hlast] at ht
    cases ht
    unfold detectEyes
    exact hres
  · intro hlt
    unfold detectEyes
    rw [hres]
    exact hearly hlt

/-- Every contour of the sample input is rejected above threshold 800. -/
theorem sample_pass_empty (t : ℚ) (ht : 800 < t) :
    passResult sampleCv sampleFace sampleRoI sampleContours t = [] := by
  by_contra hcon
  obtain ⟨c, hc, hacc⟩ := (passResult_ne_nil_iff _ _ _ _ _).mp hcon
  have harea := accepted_area _ _ _ _ _ hacc
  simp only [sampleContours, List.mem_cons, List.mem_singleton, List.not_mem_nil,
    or_false] at hc
  rcases hc with rfl | rfl | rfl <;> simp only [sampleCv] at harea <;> norm_num at harea <;>
    linarith

/-- On the sample input the loop runs five passes, at 1000, 950, 900, 850 and 800, and
returns the box accepted at 800. -/
theorem detectEyesTrace_sample :
    detectEyesTrace sampleCv sampleFace sampleRoI sampleContours
      = ([⟨25, 27, 39, 30⟩], [1000, 950, 900, 850, 800]) := by
  have h800 : passResult sampleCv sampleFace sampleRoI sampleContours 800
      = [⟨25, 27, 39, 30⟩] := by
    simp only [passResult, sampleContours, List.filter_cons, sample_accepted_800,
      sample_rejected_small, sample_rejected_ellipse]
    simp [absoluteBox, sampleCv, sampleFace]
  unfold detectEyesTrace
  rw [relaxLoopTrace_nil, if_pos ⟨sample_pass_empty 1000 (by norm_num), by norm_num⟩]
  rw [relaxLoopTrace_nil, if_pos ⟨sample_pass_empty _ (by norm_num), by norm_num⟩]
  rw [relaxLoopTrace_nil, if_pos ⟨sample_pass_empty _ (by norm_num), by norm_num⟩]
  rw [relaxLoopTrace_nil, if_pos ⟨sample_pass_empty _ (by norm_num), by norm_num⟩]
  rw [relaxLoopTrace_nil]
  have e800 : (1000 : ℚ) - 50 - 50 - 50 - 50 = 800 := by norm_num
  rw [e800, h800, if_neg (by simp)]
  norm_num

/-- C19: minimum accepted area.  Every box returned by the detector is the absolute box
of a contour of area at least 50 (threshold 0 is never tested); when every contour has
area below 50 the detector returns nothing, whatever the other tests say. -/
theorem detectEyes_min_area (cv : CvOps) (face : Rect) (RoI : Mat) (contours : List Contour) :
    (∀ r ∈ detectEyes cv face RoI contours,
        ∃ c ∈ contours, r = absoluteBox cv face c ∧ 50 ≤ cv.contourArea c)
    ∧ ((∀ c ∈ contours, cv.contourArea c < 50) → detectEyes cv face RoI contours = []) := by
  have hlow : ∀ (i : Nat) (c : Contour),
      accepted cv face RoI (50 * ((i : ℚ) + 1)) c = true → 50 ≤ cv.contourArea c := by
    intro i c hacc
    have h := accepted_area _ _ _ _ _ hacc
    have : (0 : ℚ) ≤ (i : ℚ) := Nat.cast_nonneg i
    linarith
  constructor
  · intro r hr
    rw [detectEyes_eq] at hr
    by_cases hex : ∃ i : Nat, i ≤ 19
        ∧ passResult cv face RoI contours (50 * ((i : ℚ) + 1)) ≠ []
    · obtain ⟨j, _, _, hres⟩ := relaxLoop_exists_hit cv face RoI contours 19 hex
      rw [hres] at hr
      unfold passResult at hr
      obtain ⟨c, hc, rfl⟩ := List.mem_map.mp hr
      obtain ⟨hmem, hacc⟩ := List.mem_filter.mp hc
      exact ⟨c, hmem, rfl, hlow j c hacc⟩
    · rw [relaxLoop_no_hit cv face RoI contours 19 (fun i hi => by
        by_contra hcon
        exact hex ⟨i, hi, hcon⟩)] at hr
      simp at hr
  · intro hall
    rw [detectEyes_eq]
    apply relaxLoop_no_hit
    intro i _
    by_contra hcon
    obtain ⟨c, hc, hacc⟩ := (passResult_ne_nil_iff cv face RoI contours _).mp hcon
    exact absurd (hlow i c hacc) (not_le.mpr (hall c hc))

/-- Witness for `detectEyes_min_area`: the box returned on the sample input comes from
the contour of area 800; the contour of area `49.5` passes every test but the area test
(it would be accepted at threshold 0) and is not returned. -/
theorem detectEyes_min_area_witness :
    (∃ c ∈ sampleContours, (⟨25, 27, 39, 30⟩ : Rect) = absoluteBox sampleCv sampleFace c
        ∧ 50 ≤ sampleCv.contourArea c)
    ∧ accepted smallCv sampleFace sampleRoI 0 [(0, 0)] = true
    ∧ detectEyes smallCv sampleFace sampleRoI [[(0, 0)]] = [] := by
  refine ⟨(detectEyes_min_area sampleCv sampleFace sampleRoI sampleContours).1 _ ?_, ?_,
    (detectEyes_min_area smallCv sampleFace sampleRoI [[(0, 0)]]).2 ?_⟩
  · have h := detectEyesTrace_sample
    have h2 := relaxLoopTrace_run sampleCv sampleFace sampleRoI sampleContours 19 []
    obtain ⟨n, _, _, htr, _⟩ := h2
    have h1000 : (50 : ℚ) * (((19 : ℕ) : ℚ) + 1) = 1000 := by norm_num
    rw [h1000] at htr
    unfold detectEyesTrace at h
    rw [h] at htr
    have hfst := congrArg Prod.fst htr
    simp only at hfst
    unfold detectEyes
    rw [← hfst]
    simp
  · simp only [accepted, sample_color_condition (smallCv.boundingRect [(0, 0)])
      (by simp [smallCv]) (by simp [smallCv])]
    simp [area_condition, width_condition, width_to_face, ellipse_condition, smallCv,
      sampleFace, PI, Int.tdiv]
    norm_num [abs_le]
  · intro c _
    simp only [smallCv]
    norm_num

/-! ## Batch loop: failure policy -/

/-- What the batch loop returns when entered at `img_id` with `written` already recorded:
the exit code is 1 exactly when an image without a face lies ahead, otherwise 0; the
indices recorded are the old ones and the images with a face that no image without a face
precedes; they stay in increasing order. -/
theorem batchFrom_spec (inputOf : Nat → ImageInput) (number_of_images : Nat) :
    ∀ (m img_id : Nat) (written : List Nat), number_of_images - img_id = m →
      ((batchFrom inputOf number_of_images img_id written).2 = 1
          ↔ ∃ i, img_id ≤ i ∧ i < number_of_images ∧ inputOf i = ImageInput.noFace)
      ∧ ((batchFrom inputOf number_of_images img_id written).2 = 0
          ∨ (batchFrom inputOf number_of_images img_id written).2 = 1)
      ∧ (∀ i, i ∈ (batchFrom inputOf number_of_images img_id written).1
          ↔ i ∈ written ∨ (img_id ≤ i ∧ i < number_of_images
              ∧ inputOf i = ImageInput.withFace
              ∧ ∀ j, img_id ≤ j → j ≤ i → inputOf j ≠ ImageInput.noFace))
      ∧ (written.Pairwise (fun a b => a < b) → (∀ i ∈ written, i < img_id) →
          (batchFrom inputOf number_of_images img_id written).1.Pairwise (fun a b => a < b)) := by
  intro m
  induction m with
  | zero =>
    intro img_id written hm
    rw [batchFrom, if_neg (by omega)]
    refine ⟨?_, Or.inl rfl, ?_, fun h _ => h⟩
    · simp only [zero_ne_one, false_iff, not_exists]
      intro i hi
      omega
    · intro i
      constructor
      · intro h; exact Or.inl h
      · rintro (h | h)
        · exact h
        · omega
  | succ m ih =>
    intro img_id written hm
    have hlt : img_id < number_of_images := by omega
    rw [batchFrom, if_pos hlt]
    cases hk : inputOf img_id with
    | unreadable =>
      simp only
      obtain ⟨h1, h2, h3, h4⟩ := ih (img_id + 1) written (by omega)
      refine ⟨?_, h2, ?_, ?_⟩
      · rw [h1]
        constructor
        · rintro ⟨i, hi1, hi2, hi3⟩
          exact ⟨i, by omega, hi2, hi3⟩
        · rintro ⟨i, hi1, hi2, hi3⟩
          have hne : i ≠ img_id := by
            intro heq; rw [heq, hk] at hi3; cases hi3
          exact ⟨i, by omega, hi2, hi3⟩
      · intro i
        rw [h3 i]
        constructor
        · rintro (h | ⟨ha, hb, hc, hd⟩)
          · exact Or.inl h
          · refine Or.inr ⟨by omega, hb, hc, ?_⟩
            intro j hj1 hj2
            by_cases hj : j = img_id
            · rw [hj, hk]; intro hcon; cases hcon
            · exact hd j (by omega) hj2
        · rintro (h | ⟨ha, hb, hc, hd⟩)
          · exact Or.inl h
          · have hne : i ≠ img_id := by
              intro heq; rw [heq, hk] at hc; cases hc
            exact Or.inr ⟨by omega, hb, hc, fun j hj1 hj2 => hd j (by omega) hj2⟩
      · intro hp hall
        exact h4 hp (fun i hi => by have := hall i hi; omega)
    | noFace =>
      simp only
      refine ⟨?_, Or.inr trivial, ?_, fun h _ => h⟩
      · simp only [true_iff]
        exact ⟨img_id, le_refl _, hlt, hk⟩
      · intro i
        constructor
        · intro h; exact Or.inl h
        · rintro (h | ⟨ha, _, _, hd⟩)
          · exact h
          · exact absurd hk (hd img_id (le_refl _) ha)
    | withFace =>
      simp only
      obtain ⟨h1, h2, h3, h4⟩ := ih (img_id + 1) (written ++ [img_id]) (by omega)
      refine ⟨?_, h2, ?_, ?_⟩
      · rw [h1]
        constructor
        · rintro ⟨i, hi1, hi2, hi3⟩
          exact ⟨i, by omega, hi2, hi3⟩
        · rintro ⟨i, hi1, hi2, hi3⟩
          have hne : i ≠ img_id := by
            intro heq; rw [heq, hk] at hi3; cases hi3
          exact ⟨i, by omega, hi2, hi3⟩
      · intro i
        rw [h3 i]
        simp only [List.mem_append, List.mem_singleton]
        constructor
        · rintro ((h | h) | ⟨ha, hb, hc, hd⟩)
          · exact Or.inl h
          · refine Or.inr ⟨by omega, by omega, by rw [h]; exact hk, ?_⟩
            intro j hj1 hj2
            have hj : j = img_id := by omega
            rw [hj, hk]; intro hcon; cases hcon
          · refine Or.inr ⟨by omega, hb, hc, ?_⟩
            intro j hj1 hj2
            by_cases hj : j = img_id
            · rw [hj, hk]; intro hcon; cases hcon
            · exact hd j (by omega) hj2
        · rintro (h | ⟨ha, hb, hc, hd⟩)
          · exact Or.inl (Or.inl h)
          · by_cases hi : i = img_id
            · exact Or.inl (Or.inr hi)
            · exact Or.inr ⟨by omega, hb, hc, fun j hj1 hj2 => hd j (by omega) hj2⟩
      · intro hp hall
        apply h4
        · rw [List.pairwise_append]
          refine ⟨hp, List.pairwise_singleton _ _, ?_⟩
          intro a ha b hb
          rw [List.mem_singleton.mp hb]
          exact hall a ha
        · intro i hi
          rcases List.mem_append.mp hi with h | h
          · have := hall i h; omega
          · rw [List.mem_singleton.mp h]; omega

/-- C14: batch failure policy.  With the images of the batch abstracted to unreadable,
readable without a face, or readable with a face, the program returns 1 if and only if
some image of the batch is readable without a face, and 0 otherwise; `imwrite` is called,
in index order and once each, exactly for the images with a face that no faceless
readable image precedes; unreadable images write nothing and do not stop the batch. -/
theorem runBatch_policy (inputOf : Nat → ImageInput) (starting_image number_of_images : Nat) :
    ((runBatch inputOf starting_image number_of_images).2 = 1
        ↔ ∃ i, starting_image ≤ i ∧ i < number_of_images ∧ inputOf i = ImageInput.noFace)
    ∧ ((runBatch inputOf starting_image number_of_images).2 = 0
        ↔ ¬ ∃ i, starting_image ≤ i ∧ i < number_of_images ∧ inputOf i = ImageInput.noFace)
    ∧ (∀ i, i ∈ (runBatch inputOf starting_image number_of_images).1
        ↔ (starting_image ≤ i ∧ i < number_of_images ∧ inputOf i = ImageInput.withFace
            ∧ ∀ j, starting_image ≤ j → j ≤ i → inputOf j ≠ ImageInput.noFace))
    ∧ (runBatch inputOf starting_image number_of_images).1.Pairwise (fun a b => a < b) := by
  obtain ⟨h1, h2, h3, h4⟩ :=
    batchFrom_spec inputOf number_of_images _ starting_image [] rfl
  unfold runBatch
  refine ⟨h1, ?_, ?_, h4 List.Pairwise.nil (by simp)⟩
  · rw [← h1]
    rcases h2 with h | h
    · rw [h]; simp
    · rw [h]; simp
  · intro i
    rw [h3 i]
    simp

/-- The run of `main` on 18 images where image 3 is unreadable and image 7 has no face:
outputs 0, 1, 2, 4, 5, 6 are written and the exit code is 1. -/
theorem main_sample :
    main (fun i => if i = 3 then ImageInput.unreadable
            else if i = 7 then ImageInput.noFace else ImageInput.withFace)
      = ([0, 1, 2, 4, 5, 6], 1) := by
  simp [main, runBatch, batchFrom]

/-! ## Pupil locator: ownership and largest valid contour -/

/-- When the pupil locator produces a pupil, it is built from the contour at the first
index of the sorted vector that passes the ratio test. -/
theorem locatePupil_eq_some (cv : CvOps) (eye : Rect) (i : Nat) (cnts : List Contour)
    (p : Pupil) (h : locatePupil cv eye i cnts = some p) :
    ∃ (n : Nat) (c : Contour), (stdSort (vectorAreaSorter cv) cnts).get? n = some c
      ∧ areaRatioBelow cv eye c = true
      ∧ (∀ m : Nat, m < n → ∀ d : Contour,
          (stdSort (vectorAreaSorter cv) cnts).get? m = some d →
            areaRatioBelow cv eye d = false)
      ∧ p = { center := (cv.minEnclosingCircle c).1
              radius := truncToInt (cv.minEnclosingCircle c).2
              eye_index := (i : Int) } := by
  unfold locatePupil at h
  by_cases hlen : cnts.length > 0
  · rw [if_pos hlen] at h
    simp only at h
    rcases filterArea_spec cv eye (stdSort (vectorAreaSorter cv) cnts) 0 with
      ⟨h1, _⟩ | ⟨n, c, hget, hidx, hc, hbefore⟩
    · rw [h1] at h
      simp at h
    · rw [hidx] at h
      have hne : ((0 + n : Nat) : Int) ≠ -1 := by omega
      rw [if_pos hne] at h
      have hto : ((0 + n : Nat) : Int).toNat = n := by simp
      rw [hto, hget] at h
      simp only [Option.some.injEq] at h
      exact ⟨n, c, hget, hc, hbefore, h.symm⟩
  · rw [if_neg hlen] at h
    cases h

/-- The loop over the eyes collects the pupils of the eyes in order. -/
theorem detectPupils_eq (cv : CvOps) (eyes : List Rect) (cntsOf : Nat → List Contour) :
    detectPupils cv eyes cntsOf
      = (eyes.enumFrom 0).filterMap (fun (ie : Nat × Rect) =>
          locatePupil cv ie.2 ie.1 (cntsOf ie.1)) := by
  have hfold : ∀ (l : List (Nat × Rect)) (acc : List Pupil),
      l.foldl (fun pupils ie =>
          match locatePupil cv ie.2 ie.1 (cntsOf ie.1) with
          | some p => pupils ++ [p]
          | none => pupils) acc
        = acc ++ l.filterMap (fun (ie : Nat × Rect) =>
            locatePupil cv ie.2 ie.1 (cntsOf ie.1)) := by
    intro l
    induction l with
    | nil => intro acc; simp
    | cons a l ih =>
      intro acc
      rw [List.foldl_cons, ih, List.filterMap_cons]
      cases locatePupil cv a.2 a.1 (cntsOf a.1) with
      | none => rfl
      | some p => simp
  unfold detectPupils List.enum
  rw [hfold]
  simp

/-- The pupils of the eyes numbered from `n` on have strictly increasing eye indices,
all of them in the range of those eyes. -/
theorem pupils_indices (cv : CvOps) (cntsOf : Nat → List Contour) :
    ∀ (eyes : List Rect) (n : Nat),
      ((eyes.enumFrom n).filterMap (fun (ie : Nat × Rect) =>
          locatePupil cv ie.2 ie.1 (cntsOf ie.1))).Pairwise
        (fun p q => p.eye_index < q.eye_index)
      ∧ ∀ p ∈ (eyes.enumFrom n).filterMap (fun (ie : Nat × Rect) =>
          locatePupil cv ie.2 ie.1 (cntsOf ie.1)),
          (n : Int) ≤ p.eye_index ∧ p.eye_index < (n : Int) + (eyes.length : Int) := by
  intro eyes
  induction eyes with
  | nil => intro n; simp
  | cons e es ih =>
    intro n
    obtain ⟨hpw, hrange⟩ := ih (n + 1)
    rw [List.enumFrom_cons, List.filterMap_cons]
    cases hloc : locatePupil cv e n (cntsOf n) with
    | none =>
      simp only [hloc]
      refine ⟨hpw, ?_⟩
      intro p hp
      have := hrange p hp
      simp only [List.length_cons]
      push_cast at this ⊢
      omega
    | some q =>
      simp only [hloc]
      obtain ⟨_, _, _, _, _, hq⟩ := locatePupil_eq_some cv e n (cntsOf n) q hloc
      have hqi : q.eye_index = (n : Int) := by rw [hq]
      refine ⟨List.pairwise_cons.mpr ⟨?_, hpw⟩, ?_⟩
      · intro p hp
        have := hrange p hp
        push_cast at this
        omega
      · intro p hp
        simp only [List.length_cons]
        push_cast
        rcases List.mem_cons.mp hp with rfl | hp'
        · omega
        · have := hrange p hp'
          push_cast at this
          omega

/-- A valid `int` index finds its eye. -/
theorem eyeAt_isSome (eyes : List Rect) (k : Int) (h0 : 0 ≤ k) (hk : k < (eyes.length : Int)) :
    (eyeAt eyes k).isSome = true := by
  unfold eyeAt
  rw [if_pos h0]
  have hlt : k.toNat < eyes.length := by omega
  rw [List.get?_eq_get hlt]
  rfl

/-- C13: at most one pupil per eye, with valid ownership.  In the pupil list built by
the pupil locator every eye index occurs at most once, every eye index is a valid index
into the eye list (so `eyes[eye_index]` at render time is in range), and the number of
pupils does not exceed the number of eyes. -/
theorem detectPupils_ownership (cv : CvOps) (eyes : List Rect) (cntsOf : Nat → List Contour) :
    (∀ k : Int, ((detectPupils cv eyes cntsOf).map Pupil.eye_index).count k ≤ 1)
    ∧ (∀ p ∈ detectPupils cv eyes cntsOf,
        0 ≤ p.eye_index ∧ p.eye_index < (eyes.length : Int)
          ∧ (eyeAt eyes p.eye_index).isSome = true)
    ∧ (∀ c ∈ renderPupils eyes (detectPupils cv eyes cntsOf), c.region.isSome = true)
    ∧ (detectPupils cv eyes cntsOf).length ≤ eyes.length := by
  obtain ⟨hpw, hrange⟩ := pupils_indices cv cntsOf eyes 0
  rw [← detectPupils_eq] at hpw hrange
  have hvalid : ∀ p ∈ detectPupils cv eyes cntsOf,
      0 ≤ p.eye_index ∧ p.eye_index < (eyes.length : Int)
        ∧ (eyeAt eyes p.eye_index).isSome = true := by
    intro p hp
    have := hrange p hp
    push_cast at this
    exact ⟨by omega, by omega, eyeAt_isSome eyes _ (by omega) (by omega)⟩
  refine ⟨?_, hvalid, ?_, ?_⟩
  · have hnd : ((detectPupils cv eyes cntsOf).map Pupil.eye_index).Nodup := by
      have hpw2 : ((detectPupils cv eyes cntsOf).map Pupil.eye_index).Pairwise
          (fun a b => a < b) := List.pairwise_map.mpr hpw
      exact hpw2.imp (fun hab => ne_of_lt hab)
    exact List.nodup_iff_count_le_one.mp hnd
  · intro c hc
    unfold renderPupils at hc
    cases hr : displayRadius (detectPupils cv eyes cntsOf) with
    | none => rw [hr] at hc; simp at hc
    | some r =>
      rw [hr] at hc
      simp only at hc
      obtain ⟨p, hp, rfl⟩ := List.mem_map.mp hc
      exact (hvalid p ((stdSort_perm Pupil.lt _).subset hp)).2.2
  · rw [detectPupils_eq]
    have := List.length_filterMap_le (fun (ie : Nat × Rect) =>
      locatePupil cv ie.2 ie.1 (cntsOf ie.1)) (eyes.enumFrom 0)
    simpa using this

/-- Sorting contours with `vectorAreaSorter` orders them by non-increasing area. -/
theorem stdSort_contours_pairwise (cv : CvOps) (cnts : List Contour) :
    (stdSort (vectorAreaSorter cv) cnts).Pairwise
      (fun a b => cv.contourArea b ≤ cv.contourArea a) := by
  haveI : IsTotal Contour (fun a b => vectorAreaSorter cv b a = false) :=
    ⟨fun a b => by
      simp only [vectorAreaSorter, gt_iff_lt, decide_eq_false_iff_not, not_lt]
      exact le_total _ _⟩
  haveI : IsTrans Contour (fun a b => vectorAreaSorter cv b a = false) :=
    ⟨fun a b c => by
      simp only [vectorAreaSorter, gt_iff_lt, decide_eq_false_iff_not, not_lt]
      intro h1 h2
      exact le_trans h2 h1⟩
  have h := List.sorted_insertionSort (fun a b => vectorAreaSorter cv b a = false) cnts
  unfold stdSort
  refine List.Pairwise.imp ?_ h
  intro a b hab
  simpa [vectorAreaSorter] using hab

/-- C15: the largest valid contour is selected.  When the pupil locator produces a
pupil for an eye box (positive width and height), the pupil is built from a contour `c`
of the list with `area / eyeArea < 0.8` whose area is at least the area of every contour
of the list with `area / eyeArea < 0.8`. -/
theorem locatePupil_largest (cv : CvOps) (eye : Rect) (i : Nat) (cnts : List Contour)
    (p : Pupil) (hw : 0 < eye.width) (hh : 0 < eye.height)
    (h : locatePupil cv eye i cnts = some p) :
    ∃ c ∈ cnts,
      p = { center := (cv.minEnclosingCircle c).1
            radius := truncToInt (cv.minEnclosingCircle c).2
            eye_index := (i : Int) }
      ∧ cv.contourArea c / (eye.area : ℚ) < 0.8
      ∧ ∀ d ∈ cnts, cv.contourArea d / (eye.area : ℚ) < 0.8 →
          cv.contourArea d ≤ cv.contourArea c := by
  obtain ⟨n, c, hget, hc, hbefore, hp⟩ := locatePupil_eq_some cv eye i cnts p h
  have hperm := stdSort_perm (vectorAreaSorter cv) cnts
  refine ⟨c, hperm.subset (List.get?_mem hget), hp,
    (areaRatioBelow_iff cv eye c hw hh).mp hc, ?_⟩
  intro d hd hdr
  have hdq : areaRatioBelow cv eye d = true := (areaRatioBelow_iff cv eye d hw hh).mpr hdr
  obtain ⟨m, hm⟩ := List.mem_iff_get?.mp (hperm.symm.subset hd)
  rcases Nat.lt_trichotomy m n with hlt | heq | hgt
  · have := hbefore m hlt d hm
    rw [this] at hdq
    cases hdq
  · rw [heq, hget] at hm
    cases hm
    exact le_refl _
  · obtain ⟨hn', hcn⟩ := List.get?_eq_some.mp hget
    obtain ⟨hm', hdm⟩ := List.get?_eq_some.mp hm
    have hpw := List.pairwise_iff_get.mp (stdSort_contours_pairwise cv cnts)
      ⟨n, hn'⟩ ⟨m, hm'⟩ hgt
    rw [hcn, hdm] at hpw
    exact hpw

/-- The pupil found on the sample eye `30 × 20` among the contours of area 500 and 250:
the contour of area 250, with radius `⌊9.5⌋ = 9`. -/
theorem locatePupil_sample :
    locatePupil samplePupilCv ⟨40, 50, 30, 20⟩ 0 [[(0, 0), (1, 1)], [(0, 0)]]
      = some ⟨(15, 10), 9, 0⟩ := by
  have hfloor : truncToInt ((1 : ℚ) + 17 / 2) = 9 := by
    unfold truncToInt
    rw [if_pos (by norm_num), Int.floor_eq_iff]
    norm_num
  have h1 : ¬ ((250 : ℚ) * 2 * 1.0 / 600 < 0.8) := by norm_num
  have h2 : (250 : ℚ) * 1.0 / 600 < 0.8 := by norm_num
  simp [locatePupil, stdSort, vectorAreaSorter, filterArea, areaRatioBelow, samplePupilCv,
    Rect.area, h1, h2, hfloor]

/-- Witness for `locatePupil_largest`: on the sample eye the pupil comes from a contour
with ratio below `0.8` that is the largest such contour. -/
theorem locatePupil_largest_witness :
    ∃ c ∈ ([[(0, 0), (1, 1)], [(0, 0)]] : List Contour),
      (⟨(15, 10), 9, 0⟩ : Pupil)
        = { center := (samplePupilCv.minEnclosingCircle c).1
            radius := truncToInt (samplePupilCv.minEnclosingCircle c).2
            eye_index := ((0 : Nat) : Int) }
      ∧ samplePupilCv.contourArea c / (((⟨40, 50, 30, 20⟩ : Rect).area : Int) : ℚ) < 0.8
      ∧ ∀ d ∈ ([[(0, 0), (1, 1)], [(0, 0)]] : List Contour),
          samplePupilCv.contourArea d / (((⟨40, 50, 30, 20⟩ : Rect).area : Int) : ℚ) < 0.8 →
          samplePupilCv.contourArea d ≤ samplePupilCv.contourArea c :=
  locatePupil_largest samplePupilCv ⟨40, 50, 30, 20⟩ 0 [[(0, 0), (1, 1)], [(0, 0)]]
    ⟨(15, 10), 9, 0⟩ (by decide) (by decide) locatePupil_sample

/-! ## Rendering: uniform radius -/

/-- For a non-empty pupil list the display radius is computed from a pupil of largest
stored radius. -/
theorem displayRadius_last (pupils : List Pupil) (hne : pupils ≠ []) :
    ∃ p ∈ pupils, (∀ q ∈ pupils, q.radius ≤ p.radius)
      ∧ displayRadius pupils = some (if p.radius < 5 then p.radius * 3 else p.radius) := by
  have hperm := stdSort_perm Pupil.lt pupils
  have hlen : (stdSort Pupil.lt pupils).length = pupils.length := hperm.length_eq
  have hpos : 0 < pupils.length := List.length_pos.mpr hne
  have hidx : (stdSort Pupil.lt pupils).length - 1 < (stdSort Pupil.lt pupils).length := by
    omega
  obtain ⟨p, hp⟩ : ∃ p, (stdSort Pupil.lt pupils).get? ((stdSort Pupil.lt pupils).length - 1)
      = some p := ⟨_, List.get?_eq_get hidx⟩
  have hmax := rel_last_of_pairwise (fun a b : Pupil => a.radius ≤ b.radius)
    (fun a => le_refl _) _ p (stdSort_pupils_pairwise pupils) hp
  refine ⟨p, hperm.subset (List.get?_mem hp), fun q hq => hmax q (hperm.symm.subset hq), ?_⟩
  unfold displayRadius
  rw [if_pos (by omega)]
  simp only [hp]
  by_cases h5 : p.radius < 5
  · rw [if_pos h5, if_pos h5]
  · rw [if_neg h5, if_neg h5]

/-- C12: uniform rendering.  For a non-empty pupil list the renderer makes exactly one
call to `circle` per pupil (the calls are a rearrangement of the pupils), each on the eye
region of the pupil's own eye index and at the pupil's own center, and every call uses
the same radius, the normalised display radius. -/
theorem renderPupils_uniform (eyes : List Rect) (pupils : List Pupil) (hne : pupils ≠ []) :
    ∃ r : Int, displayRadius pupils = some r
      ∧ (renderPupils eyes pupils).Perm (pupils.map (fun (p : Pupil) =>
          ({ region := eyeAt eyes p.eye_index, center := p.center, radius := r } : Circle)))
      ∧ (renderPupils eyes pupils).length = pupils.length
      ∧ ∀ c ∈ renderPupils eyes pupils, c.radius = r := by
  obtain ⟨p, _, _, hr⟩ := displayRadius_last pupils hne
  have hperm := stdSort_perm Pupil.lt pupils
  refine ⟨_, hr, ?_, ?_, ?_⟩
  · unfold renderPupils
    rw [hr]
    exact hperm.map _
  · unfold renderPupils
    rw [hr]
    simp only [List.length_map]
    exact hperm.length_eq
  · intro c hc
    unfold renderPupils at hc
    rw [hr] at hc
    simp only at hc
    obtain ⟨q, _, rfl⟩ := List.mem_map.mp hc
    rfl

/-- Witness for `renderPupils_uniform`: two eyes, the pupil of eye 1 with radius 3 and the
pupil of eye 0 with radius 2; both circles get radius 9, each on its own eye. -/
theorem renderPupils_uniform_witness :
    displayRadius [⟨(1, 1), 3, 1⟩, ⟨(2, 2), 2, 0⟩] = some 9
    ∧ (renderPupils [⟨10, 30, 26, 13⟩, ⟨60, 30, 26, 13⟩] [⟨(1, 1), 3, 1⟩, ⟨(2, 2), 2, 0⟩]).Perm
        [⟨some ⟨60, 30, 26, 13⟩, (1, 1), 9⟩, ⟨some ⟨10, 30, 26, 13⟩, (2, 2), 9⟩] := by
  obtain ⟨r, hr, hperm, _, _⟩ := renderPupils_uniform [⟨10, 30, 26, 13⟩, ⟨60, 30, 26, 13⟩]
    [⟨(1, 1), 3, 1⟩, ⟨(2, 2), 2, 0⟩] (by simp)
  have h9 : displayRadius [⟨(1, 1), 3, 1⟩, ⟨(2, 2), 2, 0⟩] = some 9 := by
    simp [displayRadius, stdSort, Pupil.lt]
  have hr9 : r = 9 := by
    rw [h9] at hr
    exact (Option.some.inj hr).symm
  subst hr9
  refine ⟨h9, ?_⟩
  simpa [eyeAt] using hperm

/-- C20: the display radius covers every detected pupil.  For a non-empty pupil list
with non-negative stored radii the normalised display radius is at least the stored
radius of each pupil. -/
theorem displayRadius_covers (pupils : List Pupil) (hne : pupils ≠ [])
    (hnonneg : ∀ p ∈ pupils, 0 ≤ p.radius) :
    ∃ r : Int, displayRadius pupils = some r ∧ ∀ p ∈ pupils, p.radius ≤ r := by
  obtain ⟨p, hp, hmax, hr⟩ := displayRadius_last pupils hne
  refine ⟨_, hr, ?_⟩
  intro q hq
  have h0 := hnonneg p hp
  have hq := hmax q hq
  by_cases h5 : p.radius < 5
  · rw [if_pos h5]; omega
  · rw [if_neg h5]; exact hq

/-- Witness for `displayRadius_covers`: stored radii 3, 4 and 2 are all covered by the
display radius (12). -/
theorem displayRadius_covers_witness :
    ∃ r : Int, displayRadius [⟨(1, 1), 3, 0⟩, ⟨(2, 2), 4, 1⟩, ⟨(3, 3), 2, 2⟩] = some r
      ∧ ∀ p ∈ ([⟨(1, 1), 3, 0⟩, ⟨(2, 2), 4, 1⟩, ⟨(3, 3), 2, 2⟩] : List Pupil), p.radius ≤ r :=
  displayRadius_covers [⟨(1, 1), 3, 0⟩, ⟨(2, 2), 4, 1⟩, ⟨(3, 3), 2, 2⟩] (by simp) (by
    intro p hp
    simp only [List.mem_cons, List.mem_singleton, List.not_mem_nil, or_false] at hp
    rcases hp with rfl | rfl | rfl <;> decide)

/-- Without the sign condition the display radius can fall below a stored radius: a
single pupil of stored radius `-1` gets the display radius `-3`. -/
theorem displayRadius_negative : displayRadius [⟨(1, 1), -1, 0⟩] = some (-3) := by
  simp [displayRadius, stdSort]

/-! ## The detector with line 151 in double arithmetic -/

/-- One contour either appends its absolute box (when it passes the tests, line 151 in
doubles) or changes nothing. -/
theorem contourStepIeee_eq (cv : CvOps) (face : Rect) (RoI : Mat) (t : ℚ) (eyes : List Rect)
    (c : Contour) :
    contourStepIeee cv face RoI t eyes c
      = if acceptedIeee cv face RoI t c then eyes ++ [absoluteBox cv face c] else eyes := by
  unfold contourStepIeee acceptedIeee absoluteBox
  simp only [truncToInt_intCast]
  by_cases h1 : (area_condition (cv.contourArea c) t
      && width_condition ((cv.boundingRect c).width : ℚ) ((cv.boundingRect c).height : ℚ)
      && width_to_face ((cv.boundingRect c).width : ℚ) face
      && ellipse_condition_ieee (cv.contourArea c) ((cv.boundingRect c).width : ℚ)
          ((cv.boundingRect c).height : ℚ)) = true
  · by_cases h2 : color_condition (RoI.roi (cv.boundingRect c)) = true
    · simp [h1, h2]
    · simp [h1, h2]
  · simp [h1]

/-- One pass of `eyePassIeee` appends the boxes of the contours that pass its tests. -/
theorem eyePassIeee_eq (cv : CvOps) (face : Rect) (RoI : Mat) (contours : List Contour) (t : ℚ)
    (eyes : List Rect) :
    eyePassIeee cv face RoI contours t eyes = eyes ++ passResultIeee cv face RoI contours t := by
  unfold eyePassIeee passResultIeee
  induction contours generalizing eyes with
  | nil => simp
  | cons c cs ih =>
    rw [List.foldl_cons, ih, contourStepIeee_eq]
    by_cases h : acceptedIeee cv face RoI t c = true
    · simp [h, List.filter_cons]
    · simp [h, List.filter_cons]

/-- The loop `relaxLoopIeee` entered with an empty list: either this pass decides, or
the next one does. -/
theorem relaxLoopIeee_nil (cv : CvOps) (face : Rect) (RoI : Mat) (contours : List Contour)
    (t : ℚ) :
    relaxLoopIeee cv face RoI contours [] t
      = if passResultIeee cv face RoI contours t = [] ∧ t - 50 > 0 then
          relaxLoopIeee cv face RoI contours [] (t - 50)
        else passResultIeee cv face RoI contours t := by
  rw [relaxLoopIeee]
  simp only [eyePassIeee_eq, List.nil_append, relative_area_increment, List.length_eq_zero]
  by_cases h : passResultIeee cv face RoI contours t = [] ∧ t - 50 > 0
  · rw [if_pos h, if_pos h, h.1]
  · rw [if_neg h, if_neg h]

/-- The detector `detectEyesIeee` is its loop run from `1000 = 50 * (19 + 1)`. -/
theorem detectEyesIeee_eq (cv : CvOps) (face : Rect) (RoI : Mat) (contours : List Contour) :
    detectEyesIeee cv face RoI contours
      = relaxLoopIeee cv face RoI contours [] (50 * (((19 : ℕ) : ℚ) + 1)) := by
  unfold detectEyesIeee
  norm_num

/-- The two detectors agree on every contour list on which the two embeddings of line
151 agree. -/
theorem detectEyesIeee_eq_detectEyes (cv : CvOps) (face : Rect) (RoI : Mat)
    (contours : List Contour)
    (h : ∀ c ∈ contours,
      ellipse_condition_ieee (cv.contourArea c) ((cv.boundingRect c).width : ℚ)
          ((cv.boundingRect c).height : ℚ)
        = ellipse_condition (cv.contourArea c) ((cv.boundingRect c).width : ℚ)
          ((cv.boundingRect c).height : ℚ)) :
    detectEyesIeee cv face RoI contours = detectEyes cv face RoI contours := by
  have hpass : ∀ t : ℚ, passResultIeee cv face RoI contours t
      = passResult cv face RoI contours t := by
    intro t
    unfold passResultIeee passResult
    congr 1
    apply List.filter_congr
    intro c hc
    simp only [acceptedIeee, accepted, h c hc]
  have hloop : ∀ k : Nat, relaxLoopIeee cv face RoI contours [] (50 * ((k : ℚ) + 1))
      = relaxLoop cv face RoI contours [] (50 * ((k : ℚ) + 1)) := by
    intro k
    induction k with
    | zero =>
      rw [relaxLoopIeee_nil, relaxLoop_nil, hpass, if_neg, if_neg]
      · intro hcon; have := hcon.2; norm_num at this
      · intro hcon; have := hcon.2; norm_num at this
    | succ k ih =>
      rw [relaxLoopIeee_nil, relaxLoop_nil, hpass]
      by_cases hk : passResult cv face RoI contours (50 * (((k + 1 : ℕ) : ℚ) + 1)) = []
          ∧ (50 : ℚ) * (((k + 1 : ℕ) : ℚ) + 1) - 50 > 0
      · rw [if_pos hk, if_pos hk]
        have heq : (50 : ℚ) * (((k + 1 : ℕ) : ℚ) + 1) - 50 = 50 * ((k : ℚ) + 1) := by
          push_cast; ring
        rw [heq]
        exact ih
      · rw [if_neg hk, if_neg hk]
  rw [detectEyesIeee_eq, detectEyes_eq]
  exact hloop 19

/-- The detector in exact arithmetic at the boundary example: the exact deviation is `0.6`,
the exact test holds, and the box is returned.  Here exact arithmetic departs from the
program, which evaluates line 151 in doubles and rejects the contour. -/
theorem detectEyes_boundary_exact :
    detectEyes boundaryCv boundaryFace boundaryRoI [[(0, 0)]] = [⟨10, 10, 200, 50⟩] := by
  have hacc : accepted boundaryCv boundaryFace boundaryRoI 1000 [(0, 0)] = true := by
    have hcol : color_condition (boundaryRoI.roi (boundaryCv.boundingRect [(0, 0)])) = true := by
      rw [color_condition_iff]
      exact ⟨0, 0, by simp [Mat.roi, boundaryCv], by simp [Mat.roi, boundaryCv],
        by simp [Mat.roi, boundaryRoI]⟩
    simp only [accepted, hcol]
    simp [area_condition, width_condition, width_to_face, ellipse_condition, boundaryCv,
      boundaryFace, PI, Int.tdiv]
    norm_num [abs_le]
  rw [detectEyes_singleton_accepted boundaryCv boundaryFace boundaryRoI [(0, 0)] 1000
    ((mem_schedule_iff 1000).mpr ⟨19, by norm_num, by norm_num⟩) hacc]
  simp [absoluteBox, boundaryCv, boundaryFace]

end EyeTracking
